import Mathlib

/-!
Verification of the bcachefs-tools design specification against a shallow
embedding of the C sources.

Each section embeds the C functions named by the design claims.  Machine
integers are modelled as `Nat` with explicit `% 2^w` where wraparound
matters; fallible C functions return `Except Int _` (the `Int` being the
negative errno), and early `exit()` paths return their exit code.
-/

set_option maxHeartbeats 1000000

namespace Bcachefs
/-! ## Common C idioms -/

/-- C's `cmp_int(l, r)` macro: `((l > r) - (l < r))`, i.e. the sign of `l - r`. -/
def cmp_int (l r : Nat) : Int :=
  (if l > r then 1 else 0) - (if l < r then 1 else 0)

/-- C's `x ?: y` (GNU elvis operator) on comparison results: `y` when `x` is zero. -/
def cElse (x y : Int) : Int :=
  if x ≠ 0 then x else y

/-! ## Positions (`struct bpos`, spec §3.1)

`bkey.h` is not among the provided sources; the position ordering is
modelled from the spec: a position is a triple `(inode, offset, snapshot)`
with lexicographic ordering, `(0,0,0) = POS_MIN`, all-ones `= POS_MAX`. -/

structure Bpos where
  inode : Nat
  offset : Nat
  snapshot : Nat
  deriving Repr, DecidableEq

/-- Modelled from the spec: `bpos_cmp` (from the absent `bkey.h`) compares
positions lexicographically on `(inode, offset, snapshot)` (spec §3.1). -/
def bpos_cmp (l r : Bpos) : Int :=
  cElse (cmp_int l.inode r.inode) <|
  cElse (cmp_int l.offset r.offset) <|
  cmp_int l.snapshot r.snapshot

/-! ## Claim C8: btree path lock ordering (`__btree_path_cmp`)

`btree_iter.c` line 55: paths are ordered for lock acquisition by
`cmp_int(btree_id) ?: cmp_int(cached) ?: bpos_cmp(pos) ?: -cmp_int(level)`.
We embed exactly the four fields the comparator reads. -/

structure BtreePath where
  btree_id : Nat
  cached : Bool
  pos : Bpos
  level : Nat
  deriving Repr, DecidableEq

/-- `__btree_path_cmp` from `btree_iter.c:55`.  (`(int) cached` is `1` for
`true`, `0` for `false`.) -/
def __btree_path_cmp (l : BtreePath) (r_btree_id : Nat) (r_cached : Bool)
    (r_pos : Bpos) (r_level : Nat) : Int :=
  cElse (cmp_int l.btree_id r_btree_id) <|
  cElse (cmp_int (cond l.cached 1 0) (cond r_cached 1 0)) <|
  cElse (bpos_cmp l.pos r_pos) <|
  (-cmp_int l.level r_level)

/-- `btree_path_cmp` from `btree_iter.c:70`. -/
def btree_path_cmp (l r : BtreePath) : Int :=
  __btree_path_cmp l r.btree_id r.cached r.pos r.level

/-- The lexicographic strict order on `(btree_id, cached, pos, -level)` that
the spec requires: `btree_id` first, then the cached flag (as the C cast
`(int) cached`), then position (itself lexicographic on
`(inode, offset, snapshot)`), and finally the *descending* level order. -/
def pathLexLt (l r : BtreePath) : Prop :=
  l.btree_id < r.btree_id ∨
  (l.btree_id = r.btree_id ∧
    ((cond l.cached 1 0 : Nat) < cond r.cached 1 0 ∨
     ((cond l.cached 1 0 : Nat) = cond r.cached 1 0 ∧
       (l.pos.inode < r.pos.inode ∨
        (l.pos.inode = r.pos.inode ∧
         (l.pos.offset < r.pos.offset ∨
          (l.pos.offset = r.pos.offset ∧
           (l.pos.snapshot < r.pos.snapshot ∨
            (l.pos.snapshot = r.pos.snapshot ∧ r.level < l.level)))))))))

/-! ## Claim C10: member durability stored at format time

`cmd_format.c:191` parses `--durability` (`kstrtouint`, rejected above
`BCH_REPLICAS_MAX`); `libbcachefs.c:249` (`bch2_format`) fills the member
table with `SET_BCH_MEMBER_DURABILITY(m, i->durability + 1)`.
`bcachefs_format.h` is not among the provided sources, so the bitfield
setter is modelled from the spec (§3.1: the member table has a per-device
`durability` field) as a plain field assignment. -/

def BCH_REPLICAS_MAX : Nat := 4

structure DevOpts where
  size : Nat
  bucket_size : Nat
  data_allowed : Nat
  durability : Nat
  discard : Bool
  nbuckets : Nat
  deriving Repr, DecidableEq

/-- `dev_opts_default()` from `libbcachefs.h`: `data_allowed = ~0U << 2`,
`durability = 1`, everything else zero. -/
def dev_opts_default : DevOpts :=
  { size := 0, bucket_size := 0, data_allowed := (2 ^ 32 - 1) % 2 ^ 32 / 4 * 4,
    durability := 1, discard := false, nbuckets := 0 }

/-- The per-device on-disk member record fields that `bch2_format` sets
(spec §3.1). -/
structure BchMember where
  nbuckets : Nat
  first_bucket : Nat
  bucket_size : Nat
  discard : Bool
  data_allowed : Nat
  durability : Nat
  deriving Repr, DecidableEq

/-- `cmd_format.c:191`: `case O_durability` — parse a decimal into
`dev_opts.durability`, dying (`none`) when it exceeds `BCH_REPLICAS_MAX`. -/
def cmd_format_parse_durability (v : Nat) (dev : DevOpts) : Option DevOpts :=
  if v > BCH_REPLICAS_MAX then none else some { dev with durability := v }

/-- The member-table entry `bch2_format` builds for one device
(`libbcachefs.c:249-261`): note `SET_BCH_MEMBER_DURABILITY(m, i->durability + 1)`. -/
def bch2_format_member (i : DevOpts) : BchMember :=
  { nbuckets := i.nbuckets, first_bucket := 0, bucket_size := i.bucket_size,
    discard := i.discard, data_allowed := i.data_allowed,
    durability := i.durability + 1 }

/-! ## Claim C6: `drop_dev_ptrs` (`migrate.c:20`)

Dropping one device's pointers from an extent key.  `bch2_bkey_durability`
and `bch2_bkey_drop_device` live in `extents.c`/`extents.h`, which are not
among the provided sources; they are modelled from the spec (§3.2
invariant 6 and the glossary: durability of a key is the sum of the
durability contributions of its live pointers; dropping a device removes
that device's pointers). -/

/-- One extent pointer, carrying the durability contribution of its device
(spec glossary: "Durability: integer contribution of a device to an
extent's redundancy requirement"). -/
structure ExtentPtr where
  dev : Nat
  durability : Nat
  deriving Repr, DecidableEq

/-- Modelled from the spec: `bch2_bkey_drop_device` removes every pointer
to the given device from the key's pointer set (spec §3.1). -/
def bch2_bkey_drop_device (k : List ExtentPtr) (dev_idx : Nat) : List ExtentPtr :=
  k.filter (fun p => p.dev ≠ dev_idx)

/-- Modelled from the spec: `bch2_bkey_durability` sums the durability
contributions of the key's pointers (spec §3.2 invariant 6). -/
def bch2_bkey_durability (k : List ExtentPtr) : Nat :=
  (k.map (·.durability)).sum

/-- The `BCH_FORCE_IF_*` ioctl flag bits, modelled as four booleans. -/
structure ForceFlags where
  data_lost : Bool
  metadata_lost : Bool
  data_degraded : Bool
  metadata_degraded : Bool
  deriving Repr, DecidableEq

def EINVAL : Int := 22

/-- `drop_dev_ptrs` from `migrate.c:20-36`: drop the device's pointers,
then fail with `-EINVAL` when the result would violate the replication
policy and the corresponding force flag was not passed. -/
def drop_dev_ptrs (metadata_replicas data_replicas : Nat) (k : List ExtentPtr)
    (dev_idx : Nat) (flags : ForceFlags) (metadata : Bool) :
    Except Int (List ExtentPtr) :=
  let replicas := if metadata then metadata_replicas else data_replicas
  let lost := if metadata then flags.metadata_lost else flags.data_lost
  let degraded := if metadata then flags.metadata_degraded else flags.data_degraded
  let k' := bch2_bkey_drop_device k dev_idx
  let nr_good := bch2_bkey_durability k'
  if (nr_good = 0 ∧ lost = false) ∨ (nr_good < replicas ∧ degraded = false) then
    .error (-EINVAL)
  else
    .ok k'

/-! ## Claim C2: `cmd_fsck` exit status (`part_010`, `cmd_fsck`)

The command is embedded as a function from the run's observable inputs
(the parsed option stream, each device's mount status as returned by
`dev_mounted`, whether `bch2_fs_open` failed, and the `BCH_FS_ERRORS_FIXED`
/ `BCH_FS_ERROR` flags after the check) to the C return value. -/

inductive FsckOpt
  /-- `-a` (outdated alias for `-p`) -/
  | a
  /-- `-p`: automatic repair -/
  | p
  /-- `-y`: assume yes -/
  | y
  /-- `-n`: no changes -/
  | n
  /-- `-f`: force check -/
  | f
  /-- `-o <opts>`: carries the `bch2_parse_mount_opts` return value -/
  | o (parse_ret : Int)
  /-- `--reconstruct_alloc` -/
  | R
  /-- `-v` -/
  | v
  /-- `-h` -/
  | h
  deriving Repr, DecidableEq

structure FsckRun where
  /-- option stream, in command-line order -/
  opts : List FsckOpt
  /-- `dev_mounted(argv[i])` per device argument: 0 unmounted, 1 mounted
  read-only, 2 mounted read-write -/
  dev_mounted : List Nat
  /-- `bch2_fs_open` returned an error -/
  open_err : Bool
  /-- `BCH_FS_ERRORS_FIXED` was set when the check finished -/
  errors_fixed : Bool
  /-- `BCH_FS_ERROR` was set when the check finished (uncorrected errors) -/
  uncorrected : Bool
  deriving Repr, DecidableEq

/-- The getopt loop of `cmd_fsck`: `-h` prints usage and `exit(16)`; a
failing `-o` parse returns its error immediately; every other option only
mutates `bch_opts` and does not affect the exit status. -/
def fsck_opts_scan : List FsckOpt → Except Int Unit
  | [] => .ok ()
  | .h :: _ => .error 16
  | .o e :: rest => if e ≠ 0 then .error e else fsck_opts_scan rest
  | .a :: rest | .p :: rest | .y :: rest | .n :: rest | .f :: rest
  | .R :: rest | .v :: rest => fsck_opts_scan rest

/-- `cmd_fsck` from `part_010` lines 226-304, as its exit status. -/
def cmd_fsck (run : FsckRun) : Int :=
  match fsck_opts_scan run.opts with
  | .error e => e
  | .ok () =>
    if run.dev_mounted.length = 0 then
      8
    else if run.dev_mounted.any (fun m => m = 2) then
      8
    else
      let ret : Int := if run.dev_mounted.any (fun m => m = 1) then 2 else 0
      if run.open_err then
        8
      else
        ret + (if run.errors_fixed then 1 else 0) + (if run.uncorrected then 4 else 0)

/-! ## Claim C3: `cmd_data_job` range parsing (`part_000`, `cmd_data_job`)

The getopt string is `"s:e:h"`.  In the source, `case 's'` assigns
`op.start_pos` and then hits `break`; the statement
`op.end_pos = bpos_parse(optarg);` that follows is dead code (it sits
after the `break`), and `case 'e'` immediately breaks, so `-e` never
assigns `end_pos`.  The embedding transcribes exactly that control flow. -/

def U64_MAX : Nat := 2 ^ 64 - 1

def U32_MAX : Nat := 2 ^ 32 - 1

def POS_MIN : Bpos := ⟨0, 0, 0⟩

/-- Modelled from the spec (§3.1): `POS_MAX` is the all-ones position. -/
def POS_MAX : Bpos := ⟨U64_MAX, U64_MAX, U32_MAX⟩

def BTREE_ID_NR : Nat := 14

/-- `struct bch_ioctl_data` fields set by `cmd_data_job`. -/
structure BchIoctlData where
  op : Nat
  start_btree : Nat
  end_btree : Nat
  start_pos : Bpos
  end_pos : Bpos
  deriving Repr, DecidableEq

/-- The initializer in `cmd_data_job`: full btree range, `POS_MIN` to
`POS_MAX`. -/
def cmd_data_job_init : BchIoctlData :=
  { op := 0, start_btree := 0, end_btree := BTREE_ID_NR,
    start_pos := POS_MIN, end_pos := POS_MAX }

/-- Options accepted by `getopt(argc, argv, "s:e:h")`, with parsed
`bpos_parse` arguments. -/
inductive DataJobOpt
  | s (pos : Bpos)
  | e (pos : Bpos)
  | h
  deriving Repr, DecidableEq

/-- The option loop of `cmd_data_job` (`part_000` lines 129-174): `-s`
assigns `start_pos` and breaks; the following `op.end_pos = ...`
assignment is unreachable dead code; `case 'e'` breaks without doing
anything; `-h` prints usage and exits (`none`). -/
def cmd_data_job_getopt : List DataJobOpt → BchIoctlData → Option BchIoctlData
  | [], op => some op
  | .s p :: rest, op => cmd_data_job_getopt rest { op with start_pos := p }
  | .e _ :: rest, op => cmd_data_job_getopt rest op
  | .h :: _, _ => none

/-! ## Claim C5: `bch2_super_write` (`libbcachefs.c:314-334`)

The write loop is embedded as the sequence of I/O events it issues.  The
checksum function `csum_vstruct(NULL, BCH_SB_CSUM_TYPE(sb), nonce, sb)`
(from the absent `checksum.h`) is kept abstract: it is an arbitrary
function of the superblock contents other than the csum field itself,
i.e. of the offset field and the remaining payload. -/

/-- Superblock magic sector: byte offset 4096 = sector 8 (spec §6.1). -/
def BCH_SB_SECTOR : Nat := 8

/-- Backup layout sector (spec §6.1: layout record at sector 7). -/
def BCH_SB_LAYOUT_SECTOR : Nat := 7

structure SbLayout where
  nr_superblocks : Nat
  sb_offset : List Nat
  deriving Repr, DecidableEq

/-- `struct bch_sb` as far as `bch2_super_write` reads and writes it: the
csum field, the offset field, the layout record, and the remaining
contents collapsed into an opaque payload. -/
structure BchSb where
  csum : Nat
  offset : Nat
  layout : SbLayout
  payload : Nat
  deriving Repr, DecidableEq

inductive SbIOEvent
  /-- `xpwrite` of the backup layout at `BCH_SB_LAYOUT_SECTOR << 9` -/
  | write_layout (sector : Nat) (layout : SbLayout)
  /-- `xpwrite` of the superblock image at `offset << 9` -/
  | write_sb (sector : Nat) (sb : BchSb)
  /-- the final `fsync(fd)` -/
  | fsync_dev
  deriving Repr, DecidableEq

/-- The loop body of `bch2_super_write` over the remaining layout offsets,
threading the mutated `struct bch_sb`:
`sb->offset = sb->layout.sb_offset[i];` then (for the primary sector) the
backup-layout write, then `sb->csum = csum_vstruct(...)` over the final
contents, then the `xpwrite` of the image; after the loop, `fsync(fd)`. -/
def super_write_go (f : Nat → SbLayout → Nat → Nat) :
    BchSb → List Nat → List SbIOEvent
  | _, [] => [.fsync_dev]
  | sb, o :: os =>
    let sb1 : BchSb := { sb with offset := o }
    let sb2 : BchSb := { sb1 with csum := f sb1.offset sb1.layout sb1.payload }
    (if o = BCH_SB_SECTOR then [SbIOEvent.write_layout BCH_SB_LAYOUT_SECTOR sb1.layout]
     else []) ++ SbIOEvent.write_sb o sb2 :: super_write_go f sb2 os

/-- `bch2_super_write` from `libbcachefs.c:314-334`, as its I/O trace:
iterate over the first `layout.nr_superblocks` layout offsets, then flush. -/
def bch2_super_write (f : Nat → SbLayout → Nat → Nat) (sb : BchSb) : List SbIOEvent :=
  super_write_go f sb (sb.layout.sb_offset.take sb.layout.nr_superblocks)

/-- The superblock image as it is written at offset `o`: offset field set
to `o` and the checksum recomputed, as the last step, over those final
contents (offset included). -/
def super_image (f : Nat → SbLayout → Nat → Nat) (L : SbLayout) (P : Nat)
    (o : Nat) : BchSb :=
  { csum := f o L P, offset := o, layout := L, payload := P }

/-! ## Allocator data model (`part_005`, alloc_background)

Claims C1, C7 and C9 are about the allocator's persistent per-bucket
state.  `struct bch_alloc_v4` carries the fields listed in spec §3.1
("Bucket"); the `BCH_ALLOC_V4_NEED_DISCARD` / `BCH_ALLOC_V4_NEED_INC_GEN`
bitfield accessors from the absent `bcachefs_format.h` are modelled as
boolean fields.  `gen` is a `u8`; increments are taken mod `2^8`. -/

structure BchAllocV4 where
  journal_seq : Nat
  gen : Nat
  oldest_gen : Nat
  data_type : Nat
  stripe : Nat
  dirty_sectors : Nat
  cached_sectors : Nat
  io_time_read : Nat
  io_time_write : Nat
  need_discard : Bool
  need_inc_gen : Bool
  deriving Repr, DecidableEq

/-- Bucket states in the order of the `bch2_bucket_states` string table at
`part_005:38`: free, need gc gens, need discard, cached, dirty. -/
inductive BucketState
  | free
  | need_gc_gens
  | need_discard
  | cached
  | dirty
  deriving Repr, DecidableEq

/-- `BCH_DATA_cached` from the `BCH_DATA_TYPES` enum (spec §9 lists the
data types `journal, btree, user, cached, parity` after `none` and `sb`). -/
def BCH_DATA_cached : Nat := 5

/-- Modelled from the spec: `bucket_state()` from the absent
`alloc_background.h`.  A bucket holding dirty sectors or a stripe is
`dirty`; one holding only cached sectors is `cached`; an empty bucket
still awaiting TRIM is `need_discard`, one awaiting a generation bump is
`need_gc_gens`, and otherwise it is `free` (spec §3.3 bucket lifecycle,
§4.5; state names and order from `part_005:38`). -/
def bucket_state (a : BchAllocV4) : BucketState :=
  if a.dirty_sectors ≠ 0 ∨ a.stripe ≠ 0 then .dirty
  else if a.cached_sectors ≠ 0 then .cached
  else if a.need_discard then .need_discard
  else if a.need_inc_gen then .need_gc_gens
  else .free

/-- Modelled from the spec: `alloc_lru_idx()` from the absent
`alloc_background.h`: the LRU index of a cached bucket is its read time
(spec §3.2 invariant 4: "`io_time[READ]` of the alloc record equals its
LRU index"); non-cached buckets have no LRU index (0). -/
def alloc_lru_idx (a : BchAllocV4) : Nat :=
  if a.data_type = BCH_DATA_cached then a.io_time_read else 0

/-- Modelled from the spec: `alloc_freespace_genbits()` from the absent
`alloc_background.h`.  The freespace index encodes the bucket's
generation bits in the top eight bits of the key offset (spec §4.5
"keys over `(device, encoded_generation_bits || offset)`"; `part_005:748`
recovers them as `offset & (~0ULL << 56)`): the genbits are the high
nibble of the 8-bit generation, shifted into the top byte. -/
def alloc_freespace_genbits (a : BchAllocV4) : Nat :=
  (a.gen >>> 4) <<< 56

/-- Modelled from the spec: `alloc_freespace_pos()` from the absent
`alloc_background.h`: the freespace key for an alloc key at `pos` is at
`pos` with the genbits or-ed into the offset. -/
def alloc_freespace_pos (pos : Bpos) (a : BchAllocV4) : Bpos :=
  { pos with offset := pos.offset ||| alloc_freespace_genbits a }

/-- `~0ULL << 56` as a 64-bit value (`part_005:748`). -/
def SHL56_MASK : Nat := ((2 ^ 64 - 1) <<< 56) % 2 ^ 64

/-- The decode performed by `bch2_check_freespace_key` (`part_005:746-748`):
`pos.offset &= ~(~0ULL << 56); genbits = freespace_pos.offset & (~0ULL << 56)`.
Returns the recovered alloc-key position and the genbits. -/
def check_freespace_key_decode (freespace_pos : Bpos) : Bpos × Nat :=
  ({ freespace_pos with offset := freespace_pos.offset &&& (U64_MAX ^^^ SHL56_MASK) },
   freespace_pos.offset &&& SHL56_MASK)

/-! ## Claim C7: `invalidate_one_bucket` (`part_005:961-1012`) -/

/-- A key in the `lru` btree: its position (`(device, read_time)`, spec
§4.5) and its value's bucket index field (`struct bch_lru`, from the
absent `lru.h`). -/
structure LruKey where
  pos : Bpos
  idx : Nat
  deriving Repr, DecidableEq

/-- `bch2_btree_iter_peek` on a position-sorted key list: the first key at
or after the search position (`bpos_cmp pos k.pos ≤ 0`, i.e.
`pos ≤ k.pos`). -/
def btree_keys_peek (ks : List LruKey) (pos : Bpos) : Option LruKey :=
  ks.find? (fun k => decide (bpos_cmp pos k.pos ≤ 0))

set_option linter.unusedVariables false in
/-- `invalidate_one_bucket` from `part_005:961-1012`, over the device's
`lru` btree (a position-sorted list of lru keys, all of key type
`KEY_TYPE_lru`) and the alloc btree (a total map from position to alloc
record).  Returns the alloc update it stages (`none` when it pops nothing
or an inconsistency sends it to `out` with no update).  `ca_discard` is
the device's `ca->mi.discard` flag; the body never reads it.
`now_read`/`now_write` are the two `atomic64_read(&c->io_clock[..].now)`
values. -/
def invalidate_one_bucket (now_read now_write : Nat) (ca_dev_idx : Nat)
    (ca_discard : Bool) (lru : List LruKey) (alloc : Bpos → BchAllocV4) :
    Option (Bpos × BchAllocV4) :=
  match btree_keys_peek lru ⟨ca_dev_idx, 0, 0⟩ with
  | none => none
  | some k =>
    if k.pos.inode ≠ ca_dev_idx then none
    else
      let idx := k.pos.offset
      let bucket := k.idx
      let a := alloc ⟨ca_dev_idx, bucket, 0⟩
      if idx ≠ alloc_lru_idx a then none
      else
        some (⟨ca_dev_idx, bucket, 0⟩,
          { a with need_inc_gen := false,
                   gen := (a.gen + 1) % 2 ^ 8,
                   data_type := 0,
                   dirty_sectors := 0,
                   cached_sectors := 0,
                   io_time_read := now_read,
                   io_time_write := now_write })

/-! ## Claim C1: the alloc trigger and the freespace / need_discard indices

`bch2_bucket_do_index` (`part_005:433`) and `bch2_trans_mark_alloc`
(`part_005:503`) are embedded over the state the trigger touches: the
alloc btree (total map device × bucket → record) and the freespace and
need_discard btrees (presence of a `KEY_TYPE_set` key per position).
`bch2_btree_iter_peek_slot` inside `bch2_bucket_do_index` runs without
`BTREE_ITER_WITH_UPDATES`, so both calls peek the *committed* btree
state; the updates they stage are applied together at commit (spec §4.3
step 5d).  `bch2_lru_change` (from the absent `lru.c`) is modelled from
the spec as an oracle that may adjust the requested LRU index or fail;
it touches only the lru btree, which the claim's invariant does not
mention. -/

structure AllocFsState where
  alloc : Nat → Nat → BchAllocV4
  freespace : Nat → Nat → Bool
  need_discard : Nat → Nat → Bool

inductive IdxBtree
  | freespace
  | need_discard
  deriving Repr, DecidableEq

/-- A staged btree update from `bch2_bucket_do_index`: which index btree,
the key position, and whether the staged key is `KEY_TYPE_set`
(`present = true`) or `KEY_TYPE_deleted`. -/
structure IdxUpdate where
  btree : IdxBtree
  dev : Nat
  offset : Nat
  present : Bool
  deriving Repr, DecidableEq

def EIO : Int := 5

/-- `bch2_bucket_do_index` from `part_005:433-501`: index only `free` and
`need_discard` buckets; peek the slot the staged key will occupy and, when
the device's freespace indices are initialized, fail with negated EIO unless
the occupant is what the staged transition expects (`KEY_TYPE_set` when
clearing, `KEY_TYPE_deleted` when setting); otherwise stage the update. -/
def bch2_bucket_do_index (fsinit : Bool) (σ : AllocFsState) (pos : Bpos)
    (a : BchAllocV4) (set : Bool) : Except Int (List IdxUpdate) :=
  if bucket_state a = .free then
    if fsinit = true ∧
       σ.freespace pos.inode (alloc_freespace_pos pos a).offset ≠ !set then
      .error (- EIO)
    else
      .ok [{ btree := .freespace, dev := pos.inode,
             offset := (alloc_freespace_pos pos a).offset, present := set }]
  else if bucket_state a = .need_discard then
    if fsinit = true ∧ σ.need_discard pos.inode pos.offset ≠ !set then
      .error (- EIO)
    else
      .ok [{ btree := .need_discard, dev := pos.inode,
             offset := pos.offset, present := set }]
  else
    .ok []

/-- The first trigger mutation of the staged alloc key
(`part_005:521-527`): sectors grew, so refresh the io times and set
`need_inc_gen` and `need_discard`. -/
def trans_mark_alloc_new1 (now_read now_write : Nat) (old new0 : BchAllocV4) :
    BchAllocV4 :=
  if new0.dirty_sectors > old.dirty_sectors ∨
     new0.cached_sectors > old.cached_sectors then
    { new0 with io_time_read := max 1 now_read, io_time_write := max 1 now_write,
                need_inc_gen := true, need_discard := true }
  else new0

/-- The second trigger mutation (`part_005:529-534`): the bucket was just
emptied, its generation unchanged and not open, so bump the generation
eagerly. -/
def trans_mark_alloc_new2 (is_open : Bool) (old new1 : BchAllocV4) : BchAllocV4 :=
  if old.data_type ≠ 0 ∧ new1.data_type = 0 ∧ old.gen = new1.gen ∧
     is_open = false then
    { new1 with gen := (new1.gen + 1) % 2 ^ 8, need_inc_gen := false }
  else new1

/-- The condition under which the trigger re-indexes the bucket
(`part_005:536-538`): its state changed, or it is free and its genbits
changed. -/
def reindex_cond (old new2 : BchAllocV4) : Prop :=
  bucket_state old ≠ bucket_state new2 ∨
  (bucket_state new2 = .free ∧
   alloc_freespace_genbits old ≠ alloc_freespace_genbits new2)

instance (old new2 : BchAllocV4) : Decidable (reindex_cond old new2) := by
  unfold reindex_cond
  infer_instance

/-- `bch2_trans_mark_alloc` from `part_005:503-559`.  `fsinit` is
`ca->mi.freespace_initialized` for the key's device, `is_open` is
`bch2_bucket_is_open_safe(c, dev, bucket)`, `now_read`/`now_write` the io
clocks, and `lru_change` the `bch2_lru_change` oracle (old idx → requested
new idx → adjusted new idx, or an error).  Returns the final alloc record
to be committed together with the staged index updates. -/
def bch2_trans_mark_alloc (fsinit is_open : Bool) (now_read now_write : Nat)
    (lru_change : Nat → Nat → Except Int Nat) (σ : AllocFsState) (pos : Bpos)
    (old new0 : BchAllocV4) : Except Int (BchAllocV4 × List IdxUpdate) :=
  let new2 := trans_mark_alloc_new2 is_open old
      (trans_mark_alloc_new1 now_read now_write old new0)
  let usr : Except Int (List IdxUpdate) :=
    if reindex_cond old new2 then
      match bch2_bucket_do_index fsinit σ pos old false with
      | .error e => .error e
      | .ok u1 =>
        match bch2_bucket_do_index fsinit σ pos new2 true with
        | .error e => .error e
        | .ok u2 => .ok (u1 ++ u2)
    else .ok []
  match usr with
  | .error e => .error e
  | .ok us =>
    if alloc_lru_idx old ≠ alloc_lru_idx new2 then
      match lru_change (alloc_lru_idx old) (alloc_lru_idx new2) with
      | .error e => .error e
      | .ok adj =>
        .ok (if adj ≠ 0 ∧ new2.io_time_read ≠ adj then
               { new2 with io_time_read := adj }
             else new2, us)
    else .ok (new2, us)

/-- Apply one staged index update to the btree state (spec §4.3 step 5d:
staged updates are applied at commit). -/
def apply_idx_update (σ : AllocFsState) (u : IdxUpdate) : AllocFsState :=
  match u.btree with
  | .freespace =>
    { σ with freespace := fun d o =>
        if d = u.dev ∧ o = u.offset then u.present else σ.freespace d o }
  | .need_discard =>
    { σ with need_discard := fun d o =>
        if d = u.dev ∧ o = u.offset then u.present else σ.need_discard d o }

/-- One committed transaction that updates the alloc key at `pos` to
`new0` through the transactional trigger: run `bch2_trans_mark_alloc`
with `old` being the live record, then atomically apply the staged index
updates and the (possibly trigger-mutated) new alloc record. -/
def trans_commit_mark_alloc (fsinit is_open : Bool) (now_read now_write : Nat)
    (lru_change : Nat → Nat → Except Int Nat) (σ : AllocFsState) (pos : Bpos)
    (new0 : BchAllocV4) : Except Int AllocFsState :=
  match bch2_trans_mark_alloc fsinit is_open now_read now_write lru_change σ pos
      (σ.alloc pos.inode pos.offset) new0 with
  | .error e => .error e
  | .ok (newF, us) =>
    let σ1 := us.foldl apply_idx_update σ
    .ok { σ1 with alloc := fun d b =>
            if d = pos.inode ∧ b = pos.offset then newF else σ1.alloc d b }

/-- The consistency invariant of claim C1 (spec §3.2 invariant 3, §8.1
invariant 4): a freespace key is present at `(d, o)` exactly when the
bucket `o` encodes (its low 56 bits) is `free` and `o` is that bucket's
offset plus its genbits — so every free bucket has exactly one freespace
key, at the position encoding bucket and genbits, and every freespace key
references a free bucket with matching genbits; and every need_discard
key references a bucket in state `need_discard`. -/
def FreespaceInv (σ : AllocFsState) : Prop :=
  (∀ d o, σ.freespace d o = true ↔
    (bucket_state (σ.alloc d (o % 2 ^ 56)) = .free ∧
     o = o % 2 ^ 56 + alloc_freespace_genbits (σ.alloc d (o % 2 ^ 56)))) ∧
  (∀ d b, σ.need_discard d b = true →
    bucket_state (σ.alloc d b) = .need_discard)

/-- Example for exercising the trigger: a dirty bucket (user data, 8 dirty
sectors, gen 5). -/
def C1_example_old : BchAllocV4 := ⟨0, 5, 0, 4, 0, 8, 0, 0, 0, false, false⟩

/-- Example staged update: the same bucket emptied (the trigger will bump
its gen to 6 and index it as free). -/
def C1_example_new : BchAllocV4 := ⟨0, 5, 0, 0, 0, 0, 0, 0, 0, false, false⟩

/-- Example filesystem state: every bucket dirty, no index keys. -/
def C1_example_state : AllocFsState :=
  ⟨fun _ _ => C1_example_old, fun _ _ => false, fun _ _ => false⟩

/-! ## Claim C4: `bch2_btree_iter_peek_upto` (`btree_iter.c:2283-2496`)

The leaf-level iterator is embedded for the configuration used on btrees
without snapshots and without the key cache (`BTREE_ITER_FILTER_SNAPSHOTS`,
`BTREE_ITER_ALL_SNAPSHOTS` and `BTREE_ITER_WITH_KEY_CACHE` unset,
`BTREE_ITER_WITH_JOURNAL` and `BTREE_ITER_WITH_UPDATES` set) — under those
flags the snapshot-filtering and key-cache branches of the source are
dead code.  Positions are flattened into `Nat` through their (lexicographic)
order; `bpos_successor` becomes `+1` and `SPOS_MAX` becomes `maxPos`.  The
leaf level of the btree is a list of leaf nodes, each with its covering
end position (`b->key.k.p`) and its sorted keys; the journal overlay
(`bch2_journal_keys_peek`) and the transaction's staged updates
(`btree_trans_peek_updates`) are sorted key lists. -/

/-- Key types as far as the iterator distinguishes them:
`KEY_TYPE_deleted` (`bkey_deleted`), `KEY_TYPE_whiteout` (which together
with deleted satisfies `bkey_whiteout`), and any live value type. -/
inductive MKeyType
  | deleted
  | whiteout
  | value
  deriving Repr, DecidableEq

/-- A key in the flattened-position model: position, size (extents:
`bkey_start_pos k = k.p - size`), and type. -/
structure MBKey where
  p : Nat
  size : Nat
  kind : MKeyType
  deriving Repr, DecidableEq

/-- A leaf node: its covering end position (`b->key.k.p`) and its keys. -/
structure BtLeaf where
  endPos : Nat
  keys : List MBKey
  deriving Repr, DecidableEq

/-- Strictly position-sorted key list. -/
def sortedKeys (l : List MBKey) : Prop := l.Pairwise (fun a b => a.p < b.p)

/-- First key at or after `s` in a sorted list (`bch2_journal_keys_peek`,
`btree_trans_peek_updates`, and the in-leaf node iterator all reduce to
this in the flattened model). -/
def firstGe (l : List MBKey) (s : Nat) : Option MBKey :=
  l.find? (fun x => decide (s ≤ x.p))

/-- The key stored at exactly position `q`. -/
def lookupKey (l : List MBKey) (q : Nat) : Option MBKey :=
  l.find? (fun x => decide (x.p = q))

/-- The leaf the traversal lands on for search key `s`: the first leaf
whose end position is at or after `s`. -/
def findLeaf : List BtLeaf → Nat → Option BtLeaf
  | [], _ => none
  | L :: rest, s => if s ≤ L.endPos then some L else findLeaf rest s

/-- All keys of the leaf level, in btree order. -/
def btreeKeys : List BtLeaf → List MBKey
  | [] => []
  | L :: rest => L.keys ++ btreeKeys rest

/-- Well-formed leaf sequence starting at lower bound `lo`: each leaf's
keys are sorted, at or above `lo`, and within the leaf's end position;
ends are non-decreasing from `lo` and later leaves start past the end. -/
def LeavesWF : Nat → List BtLeaf → Prop
  | _, [] => True
  | lo, L :: rest =>
    (∀ k ∈ L.keys, lo ≤ k.p ∧ k.p ≤ L.endPos) ∧ sortedKeys L.keys ∧
    lo ≤ L.endPos ∧ LeavesWF (L.endPos + 1) rest

def lastEnd : List BtLeaf → Nat
  | [] => 0
  | [L] => L.endPos
  | _ :: rest => lastEnd rest

/-- Well-formed leaf level: nonempty, well-formed from position 0, and the
last node covers up to `maxPos` (`SPOS_MAX`): a key may sit at any position
up to `maxPos`. -/
def BtreeWF (bt : List BtLeaf) (maxPos : Nat) : Prop :=
  bt ≠ [] ∧ LeavesWF 0 bt ∧ lastEnd bt = maxPos

/-- The key visible to the iterator at position `q`: staged updates
override the journal overlay, which overrides the btree
(`__bch2_btree_iter_peek` gives updates precedence over journal over node
on equal positions). -/
def effKey (upd jnl : List MBKey) (bt : List BtLeaf) (q : Nat) : Option MBKey :=
  match lookupKey upd q with
  | some u => some u
  | none =>
    match lookupKey jnl q with
    | some j => some j
    | none => lookupKey (btreeKeys bt) q

/-- A live (value-typed) key is visible at `q`. -/
def liveAt (upd jnl : List MBKey) (bt : List BtLeaf) (q : Nat) : Prop :=
  ∃ k, effKey upd jnl bt q = some k ∧ k.kind = .value

/-- The overlay merge step shared by `btree_trans_peek_journal`
(`btree_iter.c:2229-2247`) and the `next_update` check
(`btree_iter.c:2327-2334`): the overlay key replaces the current candidate
when its position is at or before the candidate's position — or the node's
end position when there is no candidate. -/
def mergeCand (cand : Option MBKey) (nodeEnd : Nat) (nk : Option MBKey) :
    Option MBKey :=
  match nk, cand with
  | some j, some k => if j.p ≤ k.p then some j else some k
  | some j, none => if j.p ≤ nodeEnd then some j else none
  | none, x => x

/-- One round of the `while (1)` loop of `__bch2_btree_iter_peek`
(`btree_iter.c:2283-2367`), with explicit fuel for the re-search loop:
peek the leaf for the current search key, merge the journal key
(`btree_trans_peek_journal`: taken when its position is at or before the
btree candidate, or the node end when there is none) and the staged update
(`btree_trans_peek_updates`, same rule), skip `KEY_TYPE_deleted`
candidates by re-searching at (or just past) the whiteout, and advance to
the next leaf when the node is exhausted. -/
def btree_iter_peek_go (jnl upd : List MBKey) (bt : List BtLeaf)
    (maxPos : Nat) : Nat → Nat → Option MBKey
  | 0, _ => none
  | fuel + 1, s =>
    match findLeaf bt s with
    | none => none
    | some L =>
      match mergeCand (mergeCand (firstGe L.keys s) L.endPos (firstGe jnl s))
          L.endPos (firstGe upd s) with
      | some k =>
        if k.kind = .deleted then
          btree_iter_peek_go jnl upd bt maxPos fuel (if s ≠ k.p then k.p else k.p + 1)
        else
          some k
      | none =>
        if L.endPos ≠ maxPos then
          btree_iter_peek_go jnl upd bt maxPos fuel (L.endPos + 1)
        else
          none

/-- `btree_iter_search_key` (`btree_iter.c:108`): extent iterators search
strictly past the cursor (their keys' positions are extent end positions). -/
def btree_iter_search_key (isExtents : Bool) (maxPos pos : Nat) : Nat :=
  if isExtents = true ∧ pos ≠ maxPos then pos + 1 else pos

/-- The outer loop of `bch2_btree_iter_peek_upto` (`btree_iter.c:2369-2496`)
in the modelled configuration: take the inner peek's candidate, compute the
new iterator position (extents may straddle the cursor), stop with `none`
past the `end` bound, skip whiteouts (`bkey_whiteout` keys, since
`BTREE_ITER_ALL_SNAPSHOTS` is unset) by re-searching past them, else
return the key. -/
def btree_iter_peek_upto_go (jnl upd : List MBKey) (bt : List BtLeaf)
    (maxPos : Nat) (isExtents : Bool) (pos endB : Nat) :
    Nat → Nat → Option MBKey
  | 0, _ => none
  | fuel + 1, s =>
    match btree_iter_peek_go jnl upd bt maxPos (maxPos + 2) s with
    | none => none
    | some k =>
      let iter_pos : Nat :=
        if isExtents = false then k.p
        else if pos < k.p - k.size then k.p - k.size
        else pos
      if endB < iter_pos then none
      else if k.kind = .deleted ∨ k.kind = .whiteout then
        btree_iter_peek_upto_go jnl upd bt maxPos isExtents pos endB fuel (k.p + 1)
      else some k

/-- `bch2_btree_iter_peek_upto` for an iterator at cursor `pos` with end
bound `endB`. -/
def bch2_btree_iter_peek_upto (jnl upd : List MBKey) (bt : List BtLeaf)
    (maxPos : Nat) (isExtents : Bool) (pos endB : Nat) : Option MBKey :=
  btree_iter_peek_upto_go jnl upd bt maxPos isExtents pos endB (maxPos + 2)
    (btree_iter_search_key isExtents maxPos pos)

/-! ## Theorems -/

theorem cmp_int_eq_zero {l r : Nat} : cmp_int l r = 0 ↔ l = r := by
  unfold cmp_int; split <;> split <;> omega

theorem cmp_int_lt_zero {l r : Nat} : cmp_int l r < 0 ↔ l < r := by
  unfold cmp_int; split <;> split <;> omega

theorem cmp_int_gt_zero {l r : Nat} : cmp_int l r > 0 ↔ l > r := by
  unfold cmp_int; split <;> split <;> omega

theorem cmp_int_pos {l r : Nat} : 0 < cmp_int l r ↔ r < l := by
  unfold cmp_int; split <;> split <;> omega

theorem cmp_int_antisymm (l r : Nat) : cmp_int l r = -cmp_int r l := by
  unfold cmp_int
  by_cases h1 : l < r <;> by_cases h2 : r < l <;>
    simp only [gt_iff_lt, h1, h2, if_true, if_false] <;> omega

theorem cElse_lt {x y : Int} : cElse x y < 0 ↔ (x < 0 ∨ (x = 0 ∧ y < 0)) := by
  unfold cElse; split <;> omega

theorem cElse_eq_zero {x y : Int} : cElse x y = 0 ↔ (x = 0 ∧ y = 0) := by
  unfold cElse; split <;> omega

theorem cElse_neg {x x' y y' : Int} (hx : x = -x') (hy : y = -y') :
    cElse x y = -cElse x' y' := by
  unfold cElse; subst hx hy; split <;> split <;> omega

theorem bpos_cmp_eq_zero {l r : Bpos} : bpos_cmp l r = 0 ↔ l = r := by
  unfold bpos_cmp cElse
  constructor
  · intro h
    split at h
    · omega
    · next h1 =>
      split at h
      · omega
      · next h2 =>
        cases l; cases r
        simp only [not_not, cmp_int_eq_zero] at h1 h2 h
        simp_all
  · rintro rfl
    simp [cmp_int_eq_zero.mpr rfl]

theorem path_eq_iff_fields (l r : BtreePath) :
    l = r ↔ (l.btree_id = r.btree_id ∧ (cond l.cached 1 0 : Nat) = cond r.cached 1 0 ∧
             l.pos.inode = r.pos.inode ∧ l.pos.offset = r.pos.offset ∧
             l.pos.snapshot = r.pos.snapshot ∧ l.level = r.level) := by
  constructor
  · rintro rfl; exact ⟨rfl, rfl, rfl, rfl, rfl, rfl⟩
  · rintro ⟨h1, h2, h3, h4, h5, h6⟩
    obtain ⟨lb, lc, ⟨li, lo, ls⟩, ll⟩ := l
    obtain ⟨rb, rc, ⟨ri, ro, rs⟩, rl⟩ := r
    simp only at *
    cases lc <;> cases rc <;> simp_all

theorem bpos_cmp_antisymm (l r : Bpos) : bpos_cmp l r = -bpos_cmp r l := by
  unfold bpos_cmp
  exact cElse_neg (cmp_int_antisymm ..) <|
    cElse_neg (cmp_int_antisymm ..) (cmp_int_antisymm ..)

theorem btree_path_cmp_lt_iff (l r : BtreePath) :
    btree_path_cmp l r < 0 ↔ pathLexLt l r := by
  unfold btree_path_cmp __btree_path_cmp bpos_cmp pathLexLt
  simp only [cElse_lt, cElse_eq_zero, cmp_int_lt_zero, cmp_int_eq_zero,
    neg_lt_zero, cmp_int_pos]
  omega

theorem btree_path_cmp_eq_zero_iff (l r : BtreePath) :
    btree_path_cmp l r = 0 ↔ l = r := by
  rw [path_eq_iff_fields]
  unfold btree_path_cmp __btree_path_cmp bpos_cmp
  simp only [cElse_eq_zero, cmp_int_eq_zero, neg_eq_zero]
  omega

theorem btree_path_cmp_antisymm (l r : BtreePath) :
    btree_path_cmp l r = -btree_path_cmp r l := by
  unfold btree_path_cmp __btree_path_cmp
  exact cElse_neg (cmp_int_antisymm ..) <|
    cElse_neg (cmp_int_antisymm ..) <|
    cElse_neg (bpos_cmp_antisymm ..) (by rw [cmp_int_antisymm])

theorem pathLexLt_trans {l m r : BtreePath} :
    pathLexLt l m → pathLexLt m r → pathLexLt l r := by
  unfold pathLexLt
  omega

theorem pathLexLt_trichotomy (l r : BtreePath) :
    pathLexLt l r ∨ l = r ∨ pathLexLt r l := by
  rw [path_eq_iff_fields]
  unfold pathLexLt
  omega

/-- Claim C8: `__btree_path_cmp` orders btree paths lexicographically by
`(btree_id, cached, position, -level)`: it compares `btree_id` first, then
the cached flag, then the position, and finally the level in descending
order; and the induced relation is a total (linear) order on paths — it is
irreflexive exactly on equal paths, antisymmetric, transitive, and total. -/
theorem C8_btree_path_cmp_is_lex_total_order :
    (∀ l r : BtreePath, btree_path_cmp l r < 0 ↔ pathLexLt l r) ∧
    (∀ l r : BtreePath, btree_path_cmp l r = 0 ↔ l = r) ∧
    (∀ l r : BtreePath, btree_path_cmp l r = -btree_path_cmp r l) ∧
    (∀ l m r : BtreePath, pathLexLt l m → pathLexLt m r → pathLexLt l r) ∧
    (∀ l r : BtreePath, pathLexLt l r ∨ l = r ∨ pathLexLt r l) :=
  ⟨btree_path_cmp_lt_iff, btree_path_cmp_eq_zero_iff, btree_path_cmp_antisymm,
   fun _ _ _ => pathLexLt_trans, pathLexLt_trichotomy⟩

/-- Claim C10: for every device formatted by `bch2_format`, the stored
member durability equals the durability requested on the command line plus
one; in particular it is never zero (zero is reserved for "unset"), and a
device formatted with the defaults stores `2` (requested durability `1`). -/
theorem C10_format_member_durability :
    (∀ v dev dev', cmd_format_parse_durability v dev = some dev' →
      (bch2_format_member dev').durability = v + 1) ∧
    (∀ dev : DevOpts, (bch2_format_member dev).durability = dev.durability + 1 ∧
      0 < (bch2_format_member dev).durability) ∧
    (bch2_format_member dev_opts_default).durability = 2 := by
  refine ⟨fun v dev dev' h => ?_, fun dev => ⟨rfl, Nat.succ_pos _⟩, rfl⟩
  unfold cmd_format_parse_durability at h
  split at h
  · exact absurd h (by simp)
  · cases Option.some.inj h
    rfl

/-- Witness for C10: formatting with `--durability 3` stores `4`. -/
theorem C10_format_member_durability_witness :
    cmd_format_parse_durability 3 dev_opts_default =
      some { dev_opts_default with durability := 3 } ∧
    (bch2_format_member { dev_opts_default with durability := 3 }).durability = 3 + 1 :=
  ⟨by decide,
   C10_format_member_durability.1 3 dev_opts_default _ (by decide)⟩

theorem ite_error_iff {α : Type _} {c : Prop} [Decidable c] {e : Int} {v : α} :
    (if c then (Except.error e : Except Int α) else .ok v) = .error e ↔ c := by
  by_cases h : c <;> simp [h]

theorem ite_ok_of_ne {α : Type _} {c : Prop} [Decidable c] {e : Int} {v : α}
    (h : (if c then (Except.error e : Except Int α) else .ok v) ≠ .error e) :
    (if c then (Except.error e : Except Int α) else .ok v) = .ok v := by
  by_cases hc : c <;> simp_all

/-- Claim C6: `drop_dev_ptrs` surfaces an error exactly when the operation
would degrade below policy without the corresponding force flag: after
removing the device's pointers it returns `-EINVAL` iff the remaining
durability is zero and the force-if-lost flag is absent, or the remaining
durability is below the configured replica count and the
force-if-degraded flag is absent; otherwise it succeeds with the key
minus that device's pointers. -/
theorem C6_drop_dev_ptrs_policy :
    ∀ (mr dr : Nat) (k : List ExtentPtr) (dev : Nat) (fl : ForceFlags) (md : Bool),
      (drop_dev_ptrs mr dr k dev fl md = .error (-EINVAL) ↔
        ((bch2_bkey_durability (bch2_bkey_drop_device k dev) = 0 ∧
           (if md then fl.metadata_lost else fl.data_lost) = false) ∨
         (bch2_bkey_durability (bch2_bkey_drop_device k dev) < (if md then mr else dr) ∧
           (if md then fl.metadata_degraded else fl.data_degraded) = false))) ∧
      (drop_dev_ptrs mr dr k dev fl md ≠ .error (-EINVAL) →
        drop_dev_ptrs mr dr k dev fl md = .ok (bch2_bkey_drop_device k dev)) := by
  intro mr dr k dev fl md
  exact ⟨ite_error_iff, ite_ok_of_ne⟩

/-- Counterexample to claim C2: a run on one unmounted device where
corruption was detected and fixed (`BCH_FS_ERRORS_FIXED` set, no
uncorrected errors) exits with status `1`, not `2` as the claimed mapping
("2 corruption detected and fixed") requires. -/
theorem C2_counterexample_fixed_is_one :
    cmd_fsck { opts := [.p], dev_mounted := [0], open_err := false,
               errors_fixed := true, uncorrected := false } = 1 ∧ (1 : Int) ≠ 2 := by
  constructor
  · rfl
  · decide

/-- Claim C2 (amended): `cmd_fsck` exits 16 when help was displayed, and a
failing `-o` parse returns that parse error; otherwise it exits 8 on a
fatal condition (no device arguments, a device mounted read-write, or
`bch2_fs_open` failure), and otherwise returns the sum of: 1 if corruption
was detected and fixed, 2 if some checked device was mounted read-only,
and 4 if uncorrectable errors remain — 0 on clean success. -/
theorem C2_amended_fsck_exit_codes :
    (∀ run : FsckRun, ∀ e, fsck_opts_scan run.opts = .error e → cmd_fsck run = e) ∧
    (∀ opts : List FsckOpt, FsckOpt.h ∈ opts →
      (∀ e, FsckOpt.o e ∈ opts → e = 0) → fsck_opts_scan opts = .error 16) ∧
    (∀ run : FsckRun, fsck_opts_scan run.opts = .ok () →
      (run.dev_mounted = [] ∨ 2 ∈ run.dev_mounted ∨ run.open_err = true →
        cmd_fsck run = 8) ∧
      (run.dev_mounted ≠ [] → 2 ∉ run.dev_mounted → run.open_err = false →
        cmd_fsck run =
          (if 1 ∈ run.dev_mounted then 2 else 0) +
          (if run.errors_fixed then 1 else 0) +
          (if run.uncorrected then 4 else 0))) := by
  refine ⟨fun run e h => ?_, fun opts => ?_, fun run h => ⟨fun hc => ?_, fun h1 h2 h3 => ?_⟩⟩
  · unfold cmd_fsck
    rw [h]
  · intro hmem hok
    induction opts with
    | nil => cases hmem
    | cons x rest ih =>
      cases x <;> simp only [fsck_opts_scan]
      case o e =>
        have he : e = 0 := hok e (List.mem_cons_self ..)
        subst he
        simp only [ne_eq, not_true_eq_false, if_neg, not_false_eq_true, reduceIte]
        exact ih (by simpa using hmem) (fun e' hmem' => hok e' (List.mem_cons_of_mem _ hmem'))
      all_goals
        exact ih (by simpa using hmem) (fun e' hmem' => hok e' (List.mem_cons_of_mem _ hmem'))
  · unfold cmd_fsck
    rw [h]
    rcases hc with hc | hc | hc
    · simp [hc]
    · have : run.dev_mounted.any (fun m => m = 2) = true := by
        rw [List.any_eq_true]; exact ⟨2, hc, by simp⟩
      have hne : run.dev_mounted.length ≠ 0 := by
        cases hd : run.dev_mounted with
        | nil => rw [hd] at hc; cases hc
        | cons _ _ => simp [hd]
      simp [this, hne]
    · by_cases hlen : run.dev_mounted.length = 0
      · simp [hlen]
      · by_cases hrw : run.dev_mounted.any (fun m => m = 2)
        · simp [hlen, hrw]
        · simp [hlen, hrw, hc]
  · unfold cmd_fsck
    rw [h]
    have hlen : ¬ run.dev_mounted.length = 0 := by
      intro hz; exact h1 (List.length_eq_zero.mp hz)
    have hrw : run.dev_mounted.any (fun m => m = 2) = false := by
      rw [List.any_eq_false]
      intro m hm
      simp only [decide_eq_true_eq]
      intro hm2; exact h2 (hm2 ▸ hm)
    have hro : run.dev_mounted.any (fun m => m = 1) = (if 1 ∈ run.dev_mounted then true else false) := by
      by_cases hone : 1 ∈ run.dev_mounted
      · simp only [hone, if_true, List.any_eq_true]
        exact ⟨1, hone, by simp⟩
      · simp only [hone, if_false, List.any_eq_false]
        intro m hm
        simp only [decide_eq_true_eq]
        intro hm1; exact hone (hm1 ▸ hm)
    simp only [hlen, if_false, hrw, Bool.false_eq_true, h3, hro]
    by_cases hone : 1 ∈ run.dev_mounted <;> simp [hone]

/-- Witness for the amended C2: a run with `-p` on one unmounted and one
read-only-mounted device that fixed some errors and left some uncorrected
exits `2 + 1 + 4 = 7`. -/
theorem C2_amended_fsck_exit_codes_witness :
    cmd_fsck { opts := [.p], dev_mounted := [0, 1], open_err := false,
               errors_fixed := true, uncorrected := true } = 7 := by
  have h := (C2_amended_fsck_exit_codes.2.2
      { opts := [.p], dev_mounted := [0, 1], open_err := false,
        errors_fixed := true, uncorrected := true } rfl).2
      (by decide) (by decide) rfl
  simpa using h

/-- Claim C3, evaluated at the failing input: parsing `-e 5:7` leaves
`end_pos` at `POS_MAX` instead of the parsed position `5:7`, and more
generally whatever argument `-e` carries is discarded, while `-s` does
set `start_pos`.  The spec itself flags the `switch` fallthrough as an
open question and prescribes `-s`/`-e` as independent endpoints, so the
code, not the claim, is wrong. -/
theorem C3_data_job_dash_e_ignored :
    (cmd_data_job_getopt [.e ⟨5, 7, 0⟩] cmd_data_job_init = some cmd_data_job_init ∧
     (cmd_data_job_getopt [.e ⟨5, 7, 0⟩] cmd_data_job_init).map (·.end_pos) =
       some POS_MAX ∧
     POS_MAX ≠ ⟨5, 7, 0⟩) ∧
    (∀ (p : Bpos) (op : BchIoctlData),
      cmd_data_job_getopt [.e p] op = some op ∧
      cmd_data_job_getopt [.s p] op = some { op with start_pos := p }) := by
  refine ⟨⟨rfl, rfl, by decide⟩, fun p op => ⟨rfl, rfl⟩⟩

theorem super_write_go_spec (f : Nat → SbLayout → Nat → Nat) :
    ∀ (os : List Nat) (sb : BchSb),
      super_write_go f sb os =
        (os.map fun o =>
          (if o = BCH_SB_SECTOR then
             [SbIOEvent.write_layout BCH_SB_LAYOUT_SECTOR sb.layout] else []) ++
          [SbIOEvent.write_sb o (super_image f sb.layout sb.payload o)]).flatten ++
        [SbIOEvent.fsync_dev] := by
  intro os
  induction os with
  | nil => intro sb; rfl
  | cons o os ih =>
    intro sb
    simp only [super_write_go, List.map_cons, List.flatten_cons, ih, super_image,
      List.append_assoc, List.cons_append, List.nil_append, List.singleton_append]

/-- Claim C5: `bch2_super_write` writes the superblock image to every
replica offset declared in the layout record (all `nr_superblocks`
offsets, provided the layout declares no more offsets than it lists), the
image written at each offset carries that offset in its offset field and a
checksum recomputed, last, over the final contents including the offset
field; every superblock write in the trace is of that form; and the trace
ends with a flush that follows all of the writes. -/
theorem C5_super_write_all_replicas_csum_last (f : Nat → SbLayout → Nat → Nat)
    (sb : BchSb) :
    (∀ o ∈ sb.layout.sb_offset.take sb.layout.nr_superblocks,
      SbIOEvent.write_sb o (super_image f sb.layout sb.payload o) ∈
        bch2_super_write f sb) ∧
    (∀ (o : Nat) (im : BchSb), SbIOEvent.write_sb o im ∈ bch2_super_write f sb →
      o ∈ sb.layout.sb_offset.take sb.layout.nr_superblocks ∧
      im = super_image f sb.layout sb.payload o) ∧
    (∃ body, bch2_super_write f sb = body ++ [SbIOEvent.fsync_dev] ∧
      SbIOEvent.fsync_dev ∉ body) := by
  rw [bch2_super_write, super_write_go_spec]
  refine ⟨fun o ho => ?_, fun o im hmem => ?_, ?_⟩
  · rw [List.mem_append]
    left
    rw [List.mem_flatten]
    refine ⟨_, List.mem_map_of_mem _ ho, ?_⟩
    rw [List.mem_append]
    right
    exact List.mem_singleton.mpr rfl
  · rw [List.mem_append] at hmem
    rcases hmem with hmem | hmem
    · rw [List.mem_flatten] at hmem
      obtain ⟨l, hl, hmem⟩ := hmem
      rw [List.mem_map] at hl
      obtain ⟨o', ho', rfl⟩ := hl
      rw [List.mem_append] at hmem
      rcases hmem with hmem | hmem
      · split at hmem
        · rcases List.mem_singleton.mp hmem with h
          cases h
        · cases hmem
      · rcases List.mem_singleton.mp hmem with h
        cases h
        exact ⟨ho', rfl⟩
    · rcases List.mem_singleton.mp hmem with h
      cases h
  · refine ⟨_, rfl, ?_⟩
    rw [List.mem_flatten]
    rintro ⟨l, hl, hmem⟩
    rw [List.mem_map] at hl
    obtain ⟨o', _, rfl⟩ := hl
    rw [List.mem_append] at hmem
    rcases hmem with hmem | hmem
    · split at hmem
      · rcases List.mem_singleton.mp hmem with h
        cases h
      · cases hmem
    · rcases List.mem_singleton.mp hmem with h
      cases h

/-- Witness for C5: a two-offset layout (the primary sector 8 and 1032)
produces layout-backup write, two checksummed superblock writes, and the
trailing flush. -/
theorem C5_super_write_witness :
    let L : SbLayout := { nr_superblocks := 2, sb_offset := [8, 1032] }
    let sb : BchSb := { csum := 0, offset := 0, layout := L, payload := 77 }
    let f : Nat → SbLayout → Nat → Nat := fun o _ p => o + p
    SbIOEvent.write_sb 1032 (super_image f L 77 1032) ∈ bch2_super_write f sb ∧
    (∃ body, bch2_super_write f sb = body ++ [SbIOEvent.fsync_dev] ∧
      SbIOEvent.fsync_dev ∉ body) := by
  intro L sb f
  exact ⟨(C5_super_write_all_replicas_csum_last f sb).1 1032 (by decide),
         (C5_super_write_all_replicas_csum_last f sb).2.2⟩

theorem shl56_mask_eq : SHL56_MASK = (2 ^ 8 - 1) <<< 56 := by decide

theorem low_mask_eq : U64_MAX ^^^ SHL56_MASK = 2 ^ 56 - 1 := by decide

theorem lor_shl56 (b q : Nat) (hb : b < 2 ^ 56) :
    b ||| q <<< 56 = b + q * 2 ^ 56 := by
  calc b ||| q <<< 56 = q <<< 56 ||| b := Nat.lor_comm ..
    _ = 2 ^ 56 * q ||| b := by rw [Nat.shiftLeft_eq, Nat.mul_comm]
    _ = 2 ^ 56 * q + b := (Nat.mul_add_lt_is_or hb q).symm
    _ = b + q * 2 ^ 56 := by ring

theorem lor_shl_and_high (b q : Nat) (hb : b < 2 ^ 56) (hq : q < 2 ^ 8) :
    (b ||| q <<< 56) &&& ((2 ^ 8 - 1) <<< 56) = q <<< 56 := by
  apply Nat.eq_of_testBit_eq
  intro i
  simp only [Nat.testBit_and, Nat.testBit_or, Nat.testBit_shiftLeft,
    Nat.testBit_two_pow_sub_one]
  by_cases h56 : 56 ≤ i
  · have hbi : b.testBit i = false :=
      Nat.testBit_lt_two_pow (lt_of_lt_of_le hb (Nat.pow_le_pow_right (by norm_num) h56))
    by_cases h8 : i - 56 < 8
    · simp [h56, hbi, h8]
    · have hqi : q.testBit (i - 56) = false :=
        Nat.testBit_lt_two_pow
          (lt_of_lt_of_le hq (Nat.pow_le_pow_right (by norm_num) (by omega)))
      simp [h56, hbi, h8, hqi]
  · simp [h56]

/-- Claim C9: the freespace-btree position encoding is a round trip.  For
an in-range bucket (`bucket < 2^56`, `gen` a `u8`), the freespace key for
`(device, bucket)` has `inode = device` and an offset whose low 56 bits
are the bucket offset and whose high 8 bits are the genbits; the decode
performed by `bch2_check_freespace_key` (mask with the low 56 bits, mask
with `~0ULL << 56`) recovers exactly the bucket position and the genbits,
and the encoded offset fits in 64 bits. -/
theorem C9_freespace_pos_round_trip (dev bucket snap : Nat) (a : BchAllocV4)
    (hb : bucket < 2 ^ 56) (hg : a.gen < 2 ^ 8) :
    (alloc_freespace_pos ⟨dev, bucket, snap⟩ a).inode = dev ∧
    (alloc_freespace_pos ⟨dev, bucket, snap⟩ a).offset &&& (2 ^ 56 - 1) = bucket ∧
    check_freespace_key_decode (alloc_freespace_pos ⟨dev, bucket, snap⟩ a) =
      (⟨dev, bucket, snap⟩, alloc_freespace_genbits a) ∧
    alloc_freespace_genbits a = (a.gen >>> 4) * 2 ^ 56 ∧
    a.gen >>> 4 < 2 ^ 8 ∧
    (alloc_freespace_pos ⟨dev, bucket, snap⟩ a).offset < 2 ^ 64 := by
  have hq : a.gen >>> 4 < 2 ^ 8 := by
    rw [Nat.shiftRight_eq_div_pow]
    exact lt_of_le_of_lt (Nat.div_le_self _ _) hg
  have hofs : (alloc_freespace_pos ⟨dev, bucket, snap⟩ a).offset =
      bucket ||| (a.gen >>> 4) <<< 56 := rfl
  have hadd : bucket ||| (a.gen >>> 4) <<< 56 = bucket + (a.gen >>> 4) * 2 ^ 56 :=
    lor_shl56 bucket _ hb
  have hlow : (alloc_freespace_pos ⟨dev, bucket, snap⟩ a).offset &&& (2 ^ 56 - 1)
      = bucket := by
    rw [hofs, hadd, Nat.and_pow_two_sub_one_eq_mod, Nat.add_mul_mod_self_right,
      Nat.mod_eq_of_lt hb]
  have hhigh : (alloc_freespace_pos ⟨dev, bucket, snap⟩ a).offset &&& SHL56_MASK
      = alloc_freespace_genbits a := by
    rw [hofs, shl56_mask_eq]
    exact lor_shl_and_high bucket _ hb hq
  refine ⟨rfl, hlow, ?_, Nat.shiftLeft_eq .., hq, ?_⟩
  · unfold check_freespace_key_decode
    rw [low_mask_eq]
    refine Prod.ext ?_ hhigh
    show Bpos.mk dev ((alloc_freespace_pos ⟨dev, bucket, snap⟩ a).offset &&& (2 ^ 56 - 1)) snap = _
    rw [hlow]
  · rw [hofs, hadd]
    have h1 : (a.gen >>> 4) * 2 ^ 56 ≤ 255 * 2 ^ 56 :=
      Nat.mul_le_mul_right _ (by omega)
    have h2 : bucket + (a.gen >>> 4) * 2 ^ 56 < 2 ^ 56 + 255 * 2 ^ 56 := by
      omega
    calc bucket + (a.gen >>> 4) * 2 ^ 56 < 2 ^ 56 + 255 * 2 ^ 56 := h2
      _ = 2 ^ 64 := by norm_num

/-- Witness for C9: bucket 42 of device 1 with generation `0x57` encodes
to offset `42 + 5·2^56` and decodes back. -/
theorem C9_freespace_pos_round_trip_witness :
    check_freespace_key_decode
        (alloc_freespace_pos ⟨1, 42, 0⟩ ⟨0, 87, 0, 0, 0, 0, 0, 0, 0, false, false⟩) =
      (⟨1, 42, 0⟩, alloc_freespace_genbits ⟨0, 87, 0, 0, 0, 0, 0, 0, 0, false, false⟩) :=
  (C9_freespace_pos_round_trip 1 42 0 ⟨0, 87, 0, 0, 0, 0, 0, 0, 0, false, false⟩
    (by decide) (by decide)).2.2.1

/-- Counterexample to claim C7: on a device that supports discard
(`ca_discard = true`), popping the LRU head at read-time 5 — which
references a cached bucket (data type `BCH_DATA_cached`, 100 cached
sectors, LRU index 5) with the `need_discard` flag clear — bumps the
generation and zeroes the counters but leaves the bucket *not* marked
`need_discard` — the body of `invalidate_one_bucket` never consults the
device's discard support and never sets the flag. -/
theorem C7_counterexample_no_discard_marking :
    invalidate_one_bucket 9 9 0 true [⟨⟨0, 5, 0⟩, 7⟩]
        (fun _ => ⟨0, 3, 0, 5, 0, 0, 100, 5, 0, false, false⟩) =
      some (⟨0, 7, 0⟩, ⟨0, 4, 0, 0, 0, 0, 0, 9, 9, false, false⟩) ∧
    bucket_state ⟨0, 4, 0, 0, 0, 0, 0, 9, 9, false, false⟩ ≠ .need_discard := by
  exact ⟨rfl, by decide⟩

/-- Claim C7 (amended): `invalidate_one_bucket` pops the head of the
device's LRU btree and, for the bucket that entry references (after the
entry's index is checked against the record's LRU index), increments its
generation (mod 2^8), zeroes its `data_type` and its dirty and cached
sector counts, clears `need_inc_gen`, resets the io times, and leaves the
`need_discard` flag unchanged — independently of whether the device
supports discard (the result does not depend on `ca_discard` at all). -/
theorem C7_amended_invalidate_one_bucket
    (nr nw dev : Nat) (d1 d2 : Bool) (lru : List LruKey)
    (alloc : Bpos → BchAllocV4) (p : Bpos) (a' : BchAllocV4) :
    (invalidate_one_bucket nr nw dev d1 lru alloc =
      invalidate_one_bucket nr nw dev d2 lru alloc) ∧
    (invalidate_one_bucket nr nw dev d1 lru alloc = some (p, a') →
      ∃ k, btree_keys_peek lru ⟨dev, 0, 0⟩ = some k ∧
        k.pos.inode = dev ∧
        p = ⟨dev, k.idx, 0⟩ ∧
        k.pos.offset = alloc_lru_idx (alloc p) ∧
        a'.gen = ((alloc p).gen + 1) % 2 ^ 8 ∧
        a'.data_type = 0 ∧
        a'.dirty_sectors = 0 ∧
        a'.cached_sectors = 0 ∧
        a'.need_inc_gen = false ∧
        a'.need_discard = (alloc p).need_discard ∧
        a'.io_time_read = nr ∧
        a'.io_time_write = nw) := by
  constructor
  · rfl
  · intro h
    unfold invalidate_one_bucket at h
    cases hpeek : btree_keys_peek lru ⟨dev, 0, 0⟩ with
    | none => rw [hpeek] at h; cases h
    | some k =>
      rw [hpeek] at h
      simp only [] at h
      split at h
      · cases h
      · next hinode =>
        rw [not_not] at hinode
        split at h
        · cases h
        · next hidx =>
          rw [not_not] at hidx
          have hpair := Option.some.inj h
          rw [Prod.mk.injEq] at hpair
          obtain ⟨hp, ha⟩ := hpair
          subst hp
          subst ha
          exact ⟨k, rfl, hinode, rfl, hidx, rfl, rfl, rfl, rfl, rfl, rfl, rfl, rfl⟩

/-- Witness for the amended C7, at the counterexample's input: the LRU
head at read-time 5 is popped and its cached bucket invalidated. -/
theorem C7_amended_invalidate_one_bucket_witness :
    ∃ k, btree_keys_peek [(⟨⟨0, 5, 0⟩, 7⟩ : LruKey)] ⟨0, 0, 0⟩ = some k ∧
      k.pos.inode = 0 ∧
      (⟨0, 7, 0⟩ : Bpos) = ⟨0, k.idx, 0⟩ ∧
      k.pos.offset = alloc_lru_idx
        ((fun _ => (⟨0, 3, 0, 5, 0, 0, 100, 5, 0, false, false⟩ : BchAllocV4)) (⟨0, 7, 0⟩ : Bpos)) ∧
      (⟨0, 4, 0, 0, 0, 0, 0, 9, 9, false, false⟩ : BchAllocV4).gen =
        (((fun _ => (⟨0, 3, 0, 5, 0, 0, 100, 5, 0, false, false⟩ : BchAllocV4)) (⟨0, 7, 0⟩ : Bpos)).gen + 1) % 2 ^ 8 ∧
      (⟨0, 4, 0, 0, 0, 0, 0, 9, 9, false, false⟩ : BchAllocV4).data_type = 0 ∧
      (⟨0, 4, 0, 0, 0, 0, 0, 9, 9, false, false⟩ : BchAllocV4).dirty_sectors = 0 ∧
      (⟨0, 4, 0, 0, 0, 0, 0, 9, 9, false, false⟩ : BchAllocV4).cached_sectors = 0 ∧
      (⟨0, 4, 0, 0, 0, 0, 0, 9, 9, false, false⟩ : BchAllocV4).need_inc_gen = false ∧
      (⟨0, 4, 0, 0, 0, 0, 0, 9, 9, false, false⟩ : BchAllocV4).need_discard =
        ((fun _ => (⟨0, 3, 0, 5, 0, 0, 100, 5, 0, false, false⟩ : BchAllocV4)) (⟨0, 7, 0⟩ : Bpos)).need_discard ∧
      (⟨0, 4, 0, 0, 0, 0, 0, 9, 9, false, false⟩ : BchAllocV4).io_time_read = 9 ∧
      (⟨0, 4, 0, 0, 0, 0, 0, 9, 9, false, false⟩ : BchAllocV4).io_time_write = 9 :=
  (C7_amended_invalidate_one_bucket 9 9 0 true false
    [⟨⟨0, 5, 0⟩, 7⟩] (fun _ => ⟨0, 3, 0, 5, 0, 0, 100, 5, 0, false, false⟩)
    ⟨0, 7, 0⟩ ⟨0, 4, 0, 0, 0, 0, 0, 9, 9, false, false⟩).2 rfl

theorem bucket_state_io_time_read (a : BchAllocV4) (t : Nat) :
    bucket_state { a with io_time_read := t } = bucket_state a := rfl

theorem genbits_io_time_read (a : BchAllocV4) (t : Nat) :
    alloc_freespace_genbits { a with io_time_read := t } =
      alloc_freespace_genbits a := rfl

theorem genbits_mul (a : BchAllocV4) :
    alloc_freespace_genbits a = (a.gen >>> 4) * 2 ^ 56 := by
  rw [alloc_freespace_genbits, Nat.shiftLeft_eq]

theorem freespace_offset_add (pos : Bpos) (a : BchAllocV4)
    (hb : pos.offset < 2 ^ 56) :
    (alloc_freespace_pos pos a).offset = pos.offset + alloc_freespace_genbits a := by
  show pos.offset ||| alloc_freespace_genbits a = _
  rw [alloc_freespace_genbits, lor_shl56 _ _ hb, Nat.shiftLeft_eq]

theorem add_genbits_mod {bkt : Nat} (hb : bkt < 2 ^ 56) (a : BchAllocV4) :
    (bkt + alloc_freespace_genbits a) % 2 ^ 56 = bkt := by
  rw [genbits_mul, Nat.add_mul_mod_self_right, Nat.mod_eq_of_lt hb]

theorem do_index_ok_cases {fsinit : Bool} {σ : AllocFsState} {pos : Bpos}
    {a : BchAllocV4} {set : Bool} {us : List IdxUpdate}
    (h : bch2_bucket_do_index fsinit σ pos a set = .ok us) :
    (bucket_state a ≠ .free ∧ bucket_state a ≠ .need_discard ∧ us = []) ∨
    (bucket_state a = .free ∧
      us = [⟨.freespace, pos.inode, (alloc_freespace_pos pos a).offset, set⟩] ∧
      (fsinit = true →
        σ.freespace pos.inode (alloc_freespace_pos pos a).offset = !set)) ∨
    (bucket_state a = .need_discard ∧
      us = [⟨.need_discard, pos.inode, pos.offset, set⟩] ∧
      (fsinit = true → σ.need_discard pos.inode pos.offset = !set)) := by
  unfold bch2_bucket_do_index at h
  split at h
  · next hfree =>
    split at h
    · cases h
    · next hchk =>
      rw [not_and_or, not_not] at hchk
      refine Or.inr (Or.inl ⟨hfree, (Except.ok.inj h).symm, fun hfs => ?_⟩)
      rcases hchk with hchk | hchk
      · exact absurd hfs hchk
      · exact hchk
  · next hfree =>
    split at h
    · next hnd =>
      split at h
      · cases h
      · next hchk =>
        rw [not_and_or, not_not] at hchk
        refine Or.inr (Or.inr ⟨hnd, (Except.ok.inj h).symm, fun hfs => ?_⟩)
        rcases hchk with hchk | hchk
        · exact absurd hfs hchk
        · exact hchk
    · next hnd =>
      exact Or.inl ⟨hfree, hnd, (Except.ok.inj h).symm⟩

theorem trans_mark_alloc_ok_cases {fsinit is_open : Bool} {nr nw : Nat}
    {lru_change : Nat → Nat → Except Int Nat} {σ : AllocFsState} {pos : Bpos}
    {old new0 newF : BchAllocV4} {us : List IdxUpdate}
    (h : bch2_trans_mark_alloc fsinit is_open nr nw lru_change σ pos old new0 =
      .ok (newF, us)) :
    ∃ new2 : BchAllocV4,
      bucket_state newF = bucket_state new2 ∧
      alloc_freespace_genbits newF = alloc_freespace_genbits new2 ∧
      ((¬reindex_cond old new2 ∧ us = []) ∨
       (reindex_cond old new2 ∧
        ∃ u1 u2, us = u1 ++ u2 ∧
          bch2_bucket_do_index fsinit σ pos old false = .ok u1 ∧
          bch2_bucket_do_index fsinit σ pos new2 true = .ok u2)) := by
  unfold bch2_trans_mark_alloc at h
  simp only [] at h
  set new2 := trans_mark_alloc_new2 is_open old
      (trans_mark_alloc_new1 nr nw old new0) with hnew2
  refine ⟨new2, ?_⟩
  by_cases hcond : reindex_cond old new2
  · rw [if_pos hcond] at h
    rcases h1 : bch2_bucket_do_index fsinit σ pos old false with e1 | u1 <;>
      rw [h1] at h
    · simp at h
    rcases h2 : bch2_bucket_do_index fsinit σ pos new2 true with e2 | u2 <;>
      rw [h2] at h
    · simp at h
    simp only [] at h
    split at h
    · rcases h3 : lru_change (alloc_lru_idx old) (alloc_lru_idx new2) with e3 | adj <;>
        rw [h3] at h
      · simp at h
      rw [Except.ok.injEq, Prod.mk.injEq] at h
      obtain ⟨hf, hu⟩ := h
      subst hu
      refine ⟨?_, ?_, Or.inr ⟨hcond, u1, u2, rfl, rfl, rfl⟩⟩
      · rw [← hf]
        split
        · exact bucket_state_io_time_read ..
        · rfl
      · rw [← hf]
        split
        · exact genbits_io_time_read ..
        · rfl
    · rw [Except.ok.injEq, Prod.mk.injEq] at h
      obtain ⟨hf, hu⟩ := h
      subst hu
      exact ⟨by rw [← hf], by rw [← hf], Or.inr ⟨hcond, u1, u2, rfl, rfl, rfl⟩⟩
  · rw [if_neg hcond] at h
    simp only [] at h
    split at h
    · rcases h3 : lru_change (alloc_lru_idx old) (alloc_lru_idx new2) with e3 | adj <;>
        rw [h3] at h
      · simp at h
      rw [Except.ok.injEq, Prod.mk.injEq] at h
      obtain ⟨hf, hu⟩ := h
      subst hu
      refine ⟨?_, ?_, Or.inl ⟨hcond, rfl⟩⟩
      · rw [← hf]
        split
        · exact bucket_state_io_time_read ..
        · rfl
      · rw [← hf]
        split
        · exact genbits_io_time_read ..
        · rfl
    · rw [Except.ok.injEq, Prod.mk.injEq] at h
      obtain ⟨hf, hu⟩ := h
      subst hu
      exact ⟨by rw [← hf], by rw [← hf], Or.inl ⟨hcond, rfl⟩⟩

theorem apply_idx_update_alloc (σ : AllocFsState) (u : IdxUpdate) :
    (apply_idx_update σ u).alloc = σ.alloc := by
  obtain ⟨bt, d, o, p⟩ := u
  cases bt <;> rfl

theorem foldl_apply_alloc (us : List IdxUpdate) :
    ∀ σ : AllocFsState, (us.foldl apply_idx_update σ).alloc = σ.alloc := by
  induction us with
  | nil => intro σ; rfl
  | cons u us ih => intro σ; rw [List.foldl_cons, ih, apply_idx_update_alloc]

theorem apply_one_fs (σ : AllocFsState) (u : IdxUpdate) (d o : Nat) :
    (apply_idx_update σ u).freespace d o =
      if u.btree = .freespace ∧ d = u.dev ∧ o = u.offset then u.present
      else σ.freespace d o := by
  obtain ⟨bt, ud, uo, p⟩ := u
  cases bt <;> simp [apply_idx_update]

theorem apply_one_nd (σ : AllocFsState) (u : IdxUpdate) (d o : Nat) :
    (apply_idx_update σ u).need_discard d o =
      if u.btree = .need_discard ∧ d = u.dev ∧ o = u.offset then u.present
      else σ.need_discard d o := by
  obtain ⟨bt, ud, uo, p⟩ := u
  cases bt <;> simp [apply_idx_update]

/-- Invariant step, no-reindex case: the trigger left the bucket's state
and (when free) genbits unchanged, staged no index updates, and the commit
only replaces the alloc record. -/
theorem FreespaceInv_noreindex_step (σ : AllocFsState) (dev bkt : Nat)
    (newF new2 : BchAllocV4)
    (hstate : bucket_state newF = bucket_state new2)
    (hgen : alloc_freespace_genbits newF = alloc_freespace_genbits new2)
    (hseq : bucket_state (σ.alloc dev bkt) = bucket_state new2)
    (hgeq : bucket_state new2 = .free →
      alloc_freespace_genbits (σ.alloc dev bkt) = alloc_freespace_genbits new2)
    (hinv : FreespaceInv σ) :
    FreespaceInv ⟨fun d b => if d = dev ∧ b = bkt then newF else σ.alloc d b,
      σ.freespace, σ.need_discard⟩ := by
  constructor
  · intro d o
    show σ.freespace d o = true ↔
      (bucket_state (if d = dev ∧ o % 2 ^ 56 = bkt then newF
          else σ.alloc d (o % 2 ^ 56)) = .free ∧
       o = o % 2 ^ 56 + alloc_freespace_genbits
          (if d = dev ∧ o % 2 ^ 56 = bkt then newF else σ.alloc d (o % 2 ^ 56)))
    by_cases hd : d = dev ∧ o % 2 ^ 56 = bkt
    · rw [if_pos hd, hinv.1 d o, hd.1, hd.2, hstate, hgen, ← hseq]
      by_cases hf : bucket_state (σ.alloc dev bkt) = .free
      · rw [hgeq (hseq ▸ hf)]
      · constructor
        · rintro ⟨h1, -⟩; exact absurd h1 hf
        · rintro ⟨h1, -⟩; exact absurd h1 hf
    · rw [if_neg hd]
      exact hinv.1 d o
  · intro d b hnd
    show bucket_state (if d = dev ∧ b = bkt then newF else σ.alloc d b) = _
    by_cases hd : d = dev ∧ b = bkt
    · rw [if_pos hd, hstate, ← hseq, ← hd.1, ← hd.2]
      exact hinv.2 d b hnd
    · rw [if_neg hd]
      exact hinv.2 d b hnd

/-- Invariant step, reindex case: the trigger cleared the old record's
index entry and set the new record's, and the commit applies both together
with the new alloc record. -/
theorem FreespaceInv_reindex_step (σ : AllocFsState) (dev bkt : Nat)
    (hb : bkt < 2 ^ 56) (newF new2 : BchAllocV4)
    (hstate : bucket_state newF = bucket_state new2)
    (hgen : alloc_freespace_genbits newF = alloc_freespace_genbits new2)
    (hinv : FreespaceInv σ)
    (fs' nd' : Nat → Nat → Bool)
    (hfs : ∀ d o, fs' d o =
      if bucket_state new2 = .free ∧ d = dev ∧
         o = bkt + alloc_freespace_genbits new2 then true
      else if bucket_state (σ.alloc dev bkt) = .free ∧ d = dev ∧
         o = bkt + alloc_freespace_genbits (σ.alloc dev bkt) then false
      else σ.freespace d o)
    (hnd : ∀ d b, nd' d b =
      if bucket_state new2 = .need_discard ∧ d = dev ∧ b = bkt then true
      else if bucket_state (σ.alloc dev bkt) = .need_discard ∧ d = dev ∧
         b = bkt then false
      else σ.need_discard d b) :
    FreespaceInv ⟨fun d b => if d = dev ∧ b = bkt then newF else σ.alloc d b,
      fs', nd'⟩ := by
  constructor
  · intro d o
    show fs' d o = true ↔
      (bucket_state (if d = dev ∧ o % 2 ^ 56 = bkt then newF
          else σ.alloc d (o % 2 ^ 56)) = .free ∧
       o = o % 2 ^ 56 + alloc_freespace_genbits
          (if d = dev ∧ o % 2 ^ 56 = bkt then newF else σ.alloc d (o % 2 ^ 56)))
    rw [hfs d o]
    by_cases hd : d = dev ∧ o % 2 ^ 56 = bkt
    · obtain ⟨hd1, hB⟩ := hd
      subst hd1
      have hA : (if d = d ∧ o % 2 ^ 56 = bkt then newF
          else σ.alloc d (o % 2 ^ 56)) = newF := if_pos ⟨rfl, hB⟩
      rw [hA, hB, hstate, hgen]
      have hold := hinv.1 d o
      rw [hB] at hold
      by_cases hnf : bucket_state new2 = .free
      · by_cases ho : o = bkt + alloc_freespace_genbits new2
        · rw [if_pos ⟨hnf, rfl, ho⟩]
          simp [hnf, ho]
        · rw [if_neg (fun hc => ho hc.2.2)]
          by_cases hof : bucket_state (σ.alloc d bkt) = .free
          · by_cases ho2 : o = bkt + alloc_freespace_genbits (σ.alloc d bkt)
            · rw [if_pos ⟨hof, rfl, ho2⟩]
              constructor
              · intro h; simp at h
              · rintro ⟨-, h⟩; exact absurd h ho
            · rw [if_neg (fun hc => ho2 hc.2.2), hold]
              constructor
              · rintro ⟨-, h⟩; exact absurd h ho2
              · rintro ⟨-, h⟩; exact absurd h ho
          · rw [if_neg (fun hc => hof hc.1), hold]
            constructor
            · rintro ⟨h, -⟩; exact absurd h hof
            · rintro ⟨-, h⟩; exact absurd h ho
      · rw [if_neg (fun hc => hnf hc.1)]
        by_cases hof : bucket_state (σ.alloc d bkt) = .free
        · by_cases ho2 : o = bkt + alloc_freespace_genbits (σ.alloc d bkt)
          · rw [if_pos ⟨hof, rfl, ho2⟩]
            constructor
            · intro h; simp at h
            · rintro ⟨h, -⟩; exact absurd h hnf
          · rw [if_neg (fun hc => ho2 hc.2.2), hold]
            constructor
            · rintro ⟨-, h⟩; exact absurd h ho2
            · rintro ⟨h, -⟩; exact absurd h hnf
        · rw [if_neg (fun hc => hof hc.1), hold]
          constructor
          · rintro ⟨h, -⟩; exact absurd h hof
          · rintro ⟨h, -⟩; exact absurd h hnf
    · have hA : (if d = dev ∧ o % 2 ^ 56 = bkt then newF
          else σ.alloc d (o % 2 ^ 56)) = σ.alloc d (o % 2 ^ 56) := if_neg hd
      have hno1 : ¬(bucket_state new2 = .free ∧ d = dev ∧
          o = bkt + alloc_freespace_genbits new2) := by
        intro hc
        refine hd ⟨hc.2.1, ?_⟩
        rw [hc.2.2]
        exact add_genbits_mod hb new2
      have hno2 : ¬(bucket_state (σ.alloc dev bkt) = .free ∧ d = dev ∧
          o = bkt + alloc_freespace_genbits (σ.alloc dev bkt)) := by
        intro hc
        refine hd ⟨hc.2.1, ?_⟩
        rw [hc.2.2]
        exact add_genbits_mod hb _
      rw [hA, if_neg hno1, if_neg hno2]
      exact hinv.1 d o
  · intro d b hnd'
    show bucket_state (if d = dev ∧ b = bkt then newF else σ.alloc d b) = _
    replace hnd' : nd' d b = true := hnd'
    rw [hnd d b] at hnd'
    by_cases hd : d = dev ∧ b = bkt
    · obtain ⟨hd1, hd2⟩ := hd
      subst hd1
      subst hd2
      rw [if_pos ⟨rfl, rfl⟩, hstate]
      by_cases hn2 : bucket_state new2 = .need_discard
      · exact hn2
      · rw [if_neg (fun hc => hn2 hc.1)] at hnd'
        by_cases hodnd : bucket_state (σ.alloc d b) = .need_discard
        · rw [if_pos ⟨hodnd, rfl, rfl⟩] at hnd'
          simp at hnd'
        · rw [if_neg (fun hc => hodnd hc.1)] at hnd'
          exact absurd (hinv.2 d b hnd') hodnd
    · rw [if_neg hd]
      rw [if_neg (fun hc => hd ⟨hc.2.1, hc.2.2⟩),
          if_neg (fun hc => hd ⟨hc.2.1, hc.2.2⟩)] at hnd'
      exact hinv.2 d b hnd'

theorem FreespaceInv_unique_key (σ : AllocFsState) (h : FreespaceInv σ)
    (d b : Nat) (hb : b < 2 ^ 56)
    (hfree : bucket_state (σ.alloc d b) = .free) :
    ∃! o, σ.freespace d o = true ∧ o % 2 ^ 56 = b := by
  refine ⟨b + alloc_freespace_genbits (σ.alloc d b),
    ⟨?_, add_genbits_mod hb _⟩, ?_⟩
  · rw [h.1]
    rw [add_genbits_mod hb _]
    exact ⟨hfree, rfl⟩
  · rintro o ⟨ho, hob⟩
    rw [h.1] at ho
    obtain ⟨-, ho2⟩ := ho
    rw [hob] at ho2
    exact ho2

/-- Claim C1: the alloc trigger keeps the freespace and need_discard
indices consistent with the alloc btree.  For any transaction that
updates the alloc key of an in-range bucket (`offset < 2^56`) through
`bch2_trans_mark_alloc` and commits, if the consistency invariant held
before the commit it holds after: every bucket whose record is `free` has
exactly one freespace key, at the position encoding the bucket and its
genbits; every freespace key references a free bucket with matching
genbits; and every need_discard key references a bucket in state
`need_discard`. -/
theorem C1_trans_mark_alloc_preserves_index_consistency
    (fsinit is_open : Bool) (nr nw : Nat)
    (lru_change : Nat → Nat → Except Int Nat)
    (σ σ' : AllocFsState) (pos : Bpos) (new0 : BchAllocV4)
    (hb : pos.offset < 2 ^ 56)
    (hinv : FreespaceInv σ)
    (hcommit : trans_commit_mark_alloc fsinit is_open nr nw lru_change σ pos
      new0 = .ok σ') :
    FreespaceInv σ' ∧
    (∀ d b, b < 2 ^ 56 → bucket_state (σ'.alloc d b) = .free →
      ∃! o, σ'.freespace d o = true ∧ o % 2 ^ 56 = b) ∧
    (∀ d o, σ'.freespace d o = true →
      bucket_state (σ'.alloc d (o % 2 ^ 56)) = .free ∧
      o % 2 ^ 56 + alloc_freespace_genbits (σ'.alloc d (o % 2 ^ 56)) = o) ∧
    (∀ d b, σ'.need_discard d b = true →
      bucket_state (σ'.alloc d b) = .need_discard) := by
  have hinv' : FreespaceInv σ' := by
    unfold trans_commit_mark_alloc at hcommit
    rcases hmark : bch2_trans_mark_alloc fsinit is_open nr nw lru_change σ pos
        (σ.alloc pos.inode pos.offset) new0 with e | pr
    · rw [hmark] at hcommit
      simp at hcommit
    · rw [hmark] at hcommit
      obtain ⟨newF, us⟩ := pr
      simp only [] at hcommit
      rw [Except.ok.injEq] at hcommit
      subst hcommit
      obtain ⟨new2, hstate, hgen, hcases⟩ := trans_mark_alloc_ok_cases hmark
      rcases hcases with ⟨hnore, rfl⟩ | ⟨hre, u1, u2, rfl, h1, h2⟩
      · unfold reindex_cond at hnore
        push_neg at hnore
        exact FreespaceInv_noreindex_step σ pos.inode pos.offset newF new2
          hstate hgen hnore.1 hnore.2 hinv
      · rcases do_index_ok_cases h1 with ⟨hA1, hA2, rfl⟩ | ⟨hA1, rfl, -⟩ | ⟨hA1, rfl, -⟩ <;>
          rcases do_index_ok_cases h2 with ⟨hB1, hB2, rfl⟩ | ⟨hB1, rfl, -⟩ | ⟨hB1, rfl, -⟩ <;>
          refine FreespaceInv_reindex_step σ pos.inode pos.offset hb newF new2
            hstate hgen hinv _ _ (fun d o => ?_) (fun d b => ?_) <;>
          simp only [List.singleton_append, List.nil_append, List.append_nil,
            List.foldl_cons, List.foldl_nil, apply_one_fs, apply_one_nd]
        · simp [hA1, hA2, hB1, hB2]
        · simp [hA1, hA2, hB1, hB2]
        · rw [freespace_offset_add pos new2 hb]
          simp [hA1, hA2, hB1]
        · simp [hA1, hA2, hB1]
        · simp [hA1, hA2, hB1]
        · simp [hA1, hA2, hB1]
        · rw [freespace_offset_add pos (σ.alloc pos.inode pos.offset) hb]
          simp [hA1, hB1, hB2]
        · simp [hA1, hB1, hB2]
        · rw [freespace_offset_add pos (σ.alloc pos.inode pos.offset) hb,
            freespace_offset_add pos new2 hb]
          simp [hA1, hB1]
        · simp [hA1, hB1]
        · rw [freespace_offset_add pos (σ.alloc pos.inode pos.offset) hb]
          simp [hA1, hB1]
        · simp [hA1, hB1]
        · simp [hA1, hB1, hB2]
        · simp [hA1, hB1, hB2]
        · rw [freespace_offset_add pos new2 hb]
          simp [hA1, hB1]
        · simp [hA1, hB1]
        · simp [hA1, hB1]
        · simp [hA1, hB1]
  refine ⟨hinv', fun d b hblt hfree => FreespaceInv_unique_key σ' hinv' d b hblt hfree,
    fun d o hfo => ?_, hinv'.2⟩
  have := (hinv'.1 d o).mp hfo
  exact ⟨this.1, this.2.symm⟩

/-- Witness for C1: committing the example update (emptying a dirty
bucket, which the trigger re-indexes as free with a bumped generation)
from the example state succeeds and preserves the invariant. -/
theorem C1_trans_mark_alloc_preserves_index_consistency_witness :
    FreespaceInv C1_example_state ∧
    ∃ σ', trans_commit_mark_alloc true false 1 1 (fun _ n => .ok n)
        C1_example_state ⟨3, 17, 0⟩ C1_example_new = .ok σ' ∧
      FreespaceInv σ' := by
  have hinvc : FreespaceInv C1_example_state := by
    constructor
    · intro d o
      constructor
      · intro h
        exact Bool.noConfusion h
      · rintro ⟨h, -⟩
        exact BucketState.noConfusion h
    · intro d b h
      exact Bool.noConfusion h
  exact ⟨hinvc, _, rfl,
    (C1_trans_mark_alloc_preserves_index_consistency true false 1 1
      (fun _ n => .ok n) C1_example_state _ ⟨3, 17, 0⟩ C1_example_new
      (by decide) hinvc rfl).1⟩

theorem firstGe_mem {l : List MBKey} {s : Nat} {k : MBKey}
    (h : firstGe l s = some k) : k ∈ l :=
  List.mem_of_find?_eq_some h

theorem firstGe_ge {l : List MBKey} {s : Nat} {k : MBKey}
    (h : firstGe l s = some k) : s ≤ k.p := by
  have := List.find?_some h
  simpa using this

theorem firstGe_min {l : List MBKey} {s : Nat} {k : MBKey}
    (hs : sortedKeys l) (h : firstGe l s = some k) :
    ∀ x ∈ l, s ≤ x.p → k.p ≤ x.p := by
  induction l with
  | nil => cases h
  | cons a l ih =>
    rw [sortedKeys, List.pairwise_cons] at hs
    by_cases hp : s ≤ a.p
    · rw [firstGe, List.find?_cons_of_pos _ (by simpa using hp)] at h
      cases Option.some.inj h
      intro x hx hsx
      rcases List.mem_cons.mp hx with rfl | hx
      · exact le_refl _
      · exact le_of_lt (hs.1 x hx)
    · rw [firstGe, List.find?_cons_of_neg _ (by simpa using hp)] at h
      intro x hx hsx
      rcases List.mem_cons.mp hx with rfl | hx
      · exact absurd hsx hp
      · exact ih hs.2 h x hx hsx

theorem firstGe_none {l : List MBKey} {s : Nat}
    (h : firstGe l s = none) : ∀ x ∈ l, x.p < s := by
  intro x hx
  have := List.find?_eq_none.mp h x hx
  simp only [decide_eq_true_eq] at this
  omega

theorem lookup_mem_eq {l : List MBKey} {q : Nat} {x : MBKey}
    (h : lookupKey l q = some x) : x ∈ l ∧ x.p = q := by
  refine ⟨List.mem_of_find?_eq_some h, ?_⟩
  have := List.find?_some h
  simpa using this

theorem lookup_none_of_firstGe_some {l : List MBKey} {s q : Nat} {k : MBKey}
    (hs : sortedKeys l) (h : firstGe l s = some k) (hq1 : s ≤ q)
    (hq2 : q < k.p) : lookupKey l q = none := by
  rw [lookupKey, List.find?_eq_none]
  intro x hx
  simp only [decide_eq_true_eq]
  intro hxq
  have := firstGe_min hs h x hx (by omega)
  omega

theorem lookup_none_of_firstGe_none {l : List MBKey} {s q : Nat}
    (h : firstGe l s = none) (hq : s ≤ q) : lookupKey l q = none := by
  rw [lookupKey, List.find?_eq_none]
  intro x hx
  simp only [decide_eq_true_eq]
  intro hxq
  have := firstGe_none h x hx
  omega

theorem lookup_self_sorted {l : List MBKey} (hs : sortedKeys l) {k : MBKey}
    (hk : k ∈ l) : lookupKey l k.p = some k := by
  induction l with
  | nil => cases hk
  | cons a l ih =>
    rw [sortedKeys, List.pairwise_cons] at hs
    rcases List.mem_cons.mp hk with rfl | hk
    · rw [lookupKey, List.find?_cons_of_pos _ (by simp)]
    · have hlt : a.p < k.p := hs.1 k hk
      rw [lookupKey, List.find?_cons_of_neg _ (by simp; omega)]
      exact ih hs.2 hk

theorem btreeKeys_lb {bt : List BtLeaf} : ∀ {lo : Nat}, LeavesWF lo bt →
    ∀ k ∈ btreeKeys bt, lo ≤ k.p := by
  induction bt with
  | nil => intro lo _ k hk; cases hk
  | cons L rest ih =>
    intro lo hwf k hk
    obtain ⟨hkeys, -, hle, hrest⟩ := hwf
    rcases List.mem_append.mp hk with hk | hk
    · exact (hkeys k hk).1
    · have := ih hrest k hk
      omega

theorem btreeKeys_sorted {bt : List BtLeaf} : ∀ {lo : Nat}, LeavesWF lo bt →
    sortedKeys (btreeKeys bt) := by
  induction bt with
  | nil => intro lo _; exact List.Pairwise.nil
  | cons L rest ih =>
    intro lo hwf
    obtain ⟨hkeys, hsort, hle, hrest⟩ := hwf
    rw [btreeKeys, sortedKeys, List.pairwise_append]
    refine ⟨hsort, ih hrest, fun a ha b hb => ?_⟩
    have h1 := (hkeys a ha).2
    have h2 := btreeKeys_lb hrest b hb
    omega

theorem lastEnd_cons (L M : BtLeaf) (rest : List BtLeaf) :
    lastEnd (L :: M :: rest) = lastEnd (M :: rest) := rfl

theorem lastEnd_lb {bt : List BtLeaf} : ∀ {lo : Nat}, LeavesWF lo bt →
    bt ≠ [] → lo ≤ lastEnd bt := by
  induction bt with
  | nil => intro lo _ h; exact absurd rfl h
  | cons L rest ih =>
    intro lo hwf _
    obtain ⟨-, -, hle, hrest⟩ := hwf
    cases rest with
    | nil => exact hle
    | cons M rest2 =>
      rw [lastEnd_cons]
      have := ih hrest (by simp)
      omega

theorem findLeaf_none_gt {bt : List BtLeaf} : ∀ {s : Nat},
    findLeaf bt s = none → lastEnd bt < s ∨ bt = [] := by
  induction bt with
  | nil => intro s _; exact Or.inr rfl
  | cons L rest ih =>
    intro s h
    rw [findLeaf] at h
    split at h
    · cases h
    · next hgt =>
      left
      rcases ih h with hlt | rfl
      · cases rest with
        | nil =>
          show L.endPos < s
          omega
        | cons M rest2 =>
          rw [lastEnd_cons]
          exact hlt
      · show L.endPos < s
        omega

theorem findLeaf_props {bt : List BtLeaf} : ∀ {lo s : Nat}, LeavesWF lo bt →
    ∀ {L : BtLeaf}, findLeaf bt s = some L →
      s ≤ L.endPos ∧ sortedKeys L.keys ∧ (∀ k ∈ L.keys, k.p ≤ L.endPos) ∧
      (∀ k ∈ L.keys, k ∈ btreeKeys bt) ∧
      (∀ k ∈ btreeKeys bt, s ≤ k.p → k.p ≤ L.endPos → k ∈ L.keys) ∧
      L.endPos ≤ lastEnd bt := by
  induction bt with
  | nil => intro lo s _ L h; cases h
  | cons M rest ih =>
    intro lo s hwf L h
    obtain ⟨hkeys, hsort, hle, hrest⟩ := hwf
    rw [findLeaf] at h
    split at h
    · next hsle =>
      cases Option.some.inj h
      refine ⟨hsle, hsort, fun k hk => (hkeys k hk).2,
        fun k hk => List.mem_append.mpr (Or.inl hk), fun k hk hs hend => ?_, ?_⟩
      · rcases List.mem_append.mp hk with hk | hk
        · exact hk
        · have := btreeKeys_lb hrest k hk
          omega
      · cases rest with
        | nil => exact le_refl _
        | cons N rest2 =>
          rw [lastEnd_cons]
          have := lastEnd_lb hrest (by simp)
          omega
    · next hgt =>
      obtain ⟨h1, h2, h3, h4, h5, h6⟩ := ih hrest h
      refine ⟨h1, h2, h3, fun k hk => List.mem_append.mpr (Or.inr (h4 k hk)),
        fun k hk hs hend => ?_, ?_⟩
      · rcases List.mem_append.mp hk with hk | hk
        · have := (hkeys k hk).2
          omega
        · exact h5 k hk hs hend
      · cases rest with
        | nil => cases h
        | cons N rest2 =>
          rw [lastEnd_cons]
          exact h6

theorem mergeCand_none_right (c : Option MBKey) (e : Nat) :
    mergeCand c e none = c := by
  cases c <;> rfl

theorem mergeCand_some_some (k j : MBKey) (e : Nat) :
    mergeCand (some k) e (some j) = if j.p ≤ k.p then some j else some k := rfl

theorem mergeCand_none_some (j : MBKey) (e : Nat) :
    mergeCand none e (some j) = if j.p ≤ e then some j else none := rfl

theorem peek_round_facts (jnl upd : List MBKey) (bt : List BtLeaf)
    (maxPos : Nat) (hbt : BtreeWF bt maxPos) (hj : sortedKeys jnl)
    (hu : sortedKeys upd) (s : Nat) (L : BtLeaf)
    (hL : findLeaf bt s = some L) :
    L.endPos ≤ maxPos ∧
    (∀ k, mergeCand (mergeCand (firstGe L.keys s) L.endPos (firstGe jnl s))
        L.endPos (firstGe upd s) = some k →
      s ≤ k.p ∧ k.p ≤ L.endPos ∧ effKey upd jnl bt k.p = some k ∧
      (∀ q, s ≤ q → q < k.p → effKey upd jnl bt q = none)) ∧
    (mergeCand (mergeCand (firstGe L.keys s) L.endPos (firstGe jnl s))
        L.endPos (firstGe upd s) = none →
      ∀ q, s ≤ q → q ≤ L.endPos → effKey upd jnl bt q = none) := by
  obtain ⟨hne, hwf, hlast⟩ := hbt
  obtain ⟨hsle, hsortL, hkeysle, hmemG, hcontain, hlastle⟩ := findLeaf_props hwf hL
  have hendle : L.endPos ≤ maxPos := by
    rw [← hlast]
    exact hlastle
  have hGsorted := btreeKeys_sorted hwf
  have heff_none : ∀ q, lookupKey upd q = none → lookupKey jnl q = none →
      lookupKey (btreeKeys bt) q = none → effKey upd jnl bt q = none := by
    intro q h1 h2 h3
    unfold effKey
    rw [h1, h2, h3]
  have heff_upd : ∀ q x, lookupKey upd q = some x →
      effKey upd jnl bt q = some x := by
    intro q x h1
    unfold effKey
    rw [h1]
  have heff_jnl : ∀ q x, lookupKey upd q = none → lookupKey jnl q = some x →
      effKey upd jnl bt q = some x := by
    intro q x h1 h2
    unfold effKey
    rw [h1, h2]
  have heff_bt : ∀ q x, lookupKey upd q = none → lookupKey jnl q = none →
      lookupKey (btreeKeys bt) q = some x → effKey upd jnl bt q = some x := by
    intro q x h1 h2 h3
    unfold effKey
    rw [h1, h2, h3]
  have hbt_none_of_kb : ∀ kb, firstGe L.keys s = some kb →
      ∀ q, s ≤ q → q < kb.p → lookupKey (btreeKeys bt) q = none := by
    intro kb hkb q hq1 hq2
    cases hx : lookupKey (btreeKeys bt) q with
    | none => rfl
    | some x =>
      exfalso
      obtain ⟨hxm, hxp⟩ := lookup_mem_eq hx
      have hkbe := hkeysle kb (firstGe_mem hkb)
      have hxL := hcontain x hxm (by omega) (by omega)
      have := firstGe_min hsortL hkb x hxL (by omega)
      omega
  have hbt_none_of_none : firstGe L.keys s = none →
      ∀ q, s ≤ q → q ≤ L.endPos → lookupKey (btreeKeys bt) q = none := by
    intro hkb q hq1 hq2
    cases hx : lookupKey (btreeKeys bt) q with
    | none => rfl
    | some x =>
      exfalso
      obtain ⟨hxm, hxp⟩ := lookup_mem_eq hx
      have hxL := hcontain x hxm (by omega) (by omega)
      have := firstGe_none hkb x hxL
      omega
  have hbt_self : ∀ kb, firstGe L.keys s = some kb →
      lookupKey (btreeKeys bt) kb.p = some kb := fun kb hkb =>
    lookup_self_sorted hGsorted (hmemG kb (firstGe_mem hkb))
  refine ⟨hendle, ?_, ?_⟩ <;>
    rcases hkb : firstGe L.keys s with _ | kb <;>
    rcases hjk : firstGe jnl s with _ | j <;>
    rcases huu : firstGe upd s with _ | u
  -- some-candidate conclusions, 8 cases
  · intro k hk
    rw [mergeCand_none_right, mergeCand_none_right] at hk
    cases hk
  · intro k hk
    rw [mergeCand_none_right, mergeCand_none_some] at hk
    split at hk
    · next hle =>
      obtain rfl := Option.some.inj hk
      have hup := firstGe_ge huu
      refine ⟨hup, hle, heff_upd _ _ (lookup_self_sorted hu (firstGe_mem huu)), ?_⟩
      intro q hq1 hq2
      exact heff_none q (lookup_none_of_firstGe_some hu huu hq1 hq2)
        (lookup_none_of_firstGe_none hjk hq1)
        (hbt_none_of_none hkb q hq1 (by omega))
    · cases hk
  · intro k hk
    rw [mergeCand_none_some, mergeCand_none_right] at hk
    split at hk
    · next hle =>
      obtain rfl := Option.some.inj hk
      have hjp := firstGe_ge hjk
      refine ⟨hjp, hle, heff_jnl _ _ (lookup_none_of_firstGe_none huu hjp)
        (lookup_self_sorted hj (firstGe_mem hjk)), ?_⟩
      intro q hq1 hq2
      exact heff_none q (lookup_none_of_firstGe_none huu hq1)
        (lookup_none_of_firstGe_some hj hjk hq1 hq2)
        (hbt_none_of_none hkb q hq1 (by omega))
    · cases hk
  · intro k hk
    rw [mergeCand_none_some] at hk
    by_cases hjle : j.p ≤ L.endPos
    · rw [if_pos hjle, mergeCand_some_some] at hk
      split at hk
      · next hule =>
        obtain rfl := Option.some.inj hk
        have hup := firstGe_ge huu
        refine ⟨hup, by omega, heff_upd _ _
          (lookup_self_sorted hu (firstGe_mem huu)), ?_⟩
        intro q hq1 hq2
        exact heff_none q (lookup_none_of_firstGe_some hu huu hq1 hq2)
          (lookup_none_of_firstGe_some hj hjk hq1 (by omega))
          (hbt_none_of_none hkb q hq1 (by omega))
      · next hugt =>
        obtain rfl := Option.some.inj hk
        have hjp := firstGe_ge hjk
        refine ⟨hjp, hjle, heff_jnl _ _
          (lookup_none_of_firstGe_some hu huu hjp (by omega))
          (lookup_self_sorted hj (firstGe_mem hjk)), ?_⟩
        intro q hq1 hq2
        exact heff_none q (lookup_none_of_firstGe_some hu huu hq1 (by omega))
          (lookup_none_of_firstGe_some hj hjk hq1 hq2)
          (hbt_none_of_none hkb q hq1 (by omega))
    · rw [if_neg hjle, mergeCand_none_some] at hk
      split at hk
      · next hule =>
        obtain rfl := Option.some.inj hk
        have hup := firstGe_ge huu
        refine ⟨hup, hule, heff_upd _ _
          (lookup_self_sorted hu (firstGe_mem huu)), ?_⟩
        intro q hq1 hq2
        exact heff_none q (lookup_none_of_firstGe_some hu huu hq1 hq2)
          (lookup_none_of_firstGe_some hj hjk hq1 (by omega))
          (hbt_none_of_none hkb q hq1 (by omega))
      · cases hk
  · intro k hk
    rw [mergeCand_none_right, mergeCand_none_right] at hk
    obtain rfl := Option.some.inj hk
    have hkp := firstGe_ge hkb
    have hkbe := hkeysle kb (firstGe_mem hkb)
    refine ⟨hkp, hkbe, heff_bt _ _ (lookup_none_of_firstGe_none huu hkp)
      (lookup_none_of_firstGe_none hjk hkp) (hbt_self kb hkb), ?_⟩
    intro q hq1 hq2
    exact heff_none q (lookup_none_of_firstGe_none huu hq1)
      (lookup_none_of_firstGe_none hjk hq1) (hbt_none_of_kb kb hkb q hq1 hq2)
  · intro k hk
    have hkbe := hkeysle kb (firstGe_mem hkb)
    rw [mergeCand_none_right, mergeCand_some_some] at hk
    split at hk
    · next hule =>
      obtain rfl := Option.some.inj hk
      have hup := firstGe_ge huu
      refine ⟨hup, by omega, heff_upd _ _
        (lookup_self_sorted hu (firstGe_mem huu)), ?_⟩
      intro q hq1 hq2
      exact heff_none q (lookup_none_of_firstGe_some hu huu hq1 hq2)
        (lookup_none_of_firstGe_none hjk hq1)
        (hbt_none_of_kb kb hkb q hq1 (by omega))
    · next hugt =>
      obtain rfl := Option.some.inj hk
      have hkp := firstGe_ge hkb
      refine ⟨hkp, hkbe, heff_bt _ _
        (lookup_none_of_firstGe_some hu huu hkp (by omega))
        (lookup_none_of_firstGe_none hjk hkp) (hbt_self kb hkb), ?_⟩
      intro q hq1 hq2
      exact heff_none q (lookup_none_of_firstGe_some hu huu hq1 (by omega))
        (lookup_none_of_firstGe_none hjk hq1)
        (hbt_none_of_kb kb hkb q hq1 hq2)
  · intro k hk
    have hkbe := hkeysle kb (firstGe_mem hkb)
    rw [mergeCand_some_some, mergeCand_none_right] at hk
    split at hk
    · next hjle =>
      obtain rfl := Option.some.inj hk
      have hjp := firstGe_ge hjk
      refine ⟨hjp, by omega, heff_jnl _ _
        (lookup_none_of_firstGe_none huu hjp)
        (lookup_self_sorted hj (firstGe_mem hjk)), ?_⟩
      intro q hq1 hq2
      exact heff_none q (lookup_none_of_firstGe_none huu hq1)
        (lookup_none_of_firstGe_some hj hjk hq1 hq2)
        (hbt_none_of_kb kb hkb q hq1 (by omega))
    · next hjgt =>
      obtain rfl := Option.some.inj hk
      have hkp := firstGe_ge hkb
      refine ⟨hkp, hkbe, heff_bt _ _
        (lookup_none_of_firstGe_none huu hkp)
        (lookup_none_of_firstGe_some hj hjk hkp (by omega))
        (hbt_self kb hkb), ?_⟩
      intro q hq1 hq2
      exact heff_none q (lookup_none_of_firstGe_none huu hq1)
        (lookup_none_of_firstGe_some hj hjk hq1 (by omega))
        (hbt_none_of_kb kb hkb q hq1 hq2)
  · intro k hk
    have hkbe := hkeysle kb (firstGe_mem hkb)
    rw [mergeCand_some_some] at hk
    by_cases hjle : j.p ≤ kb.p
    · rw [if_pos hjle, mergeCand_some_some] at hk
      split at hk
      · next hule =>
        obtain rfl := Option.some.inj hk
        have hup := firstGe_ge huu
        refine ⟨hup, by omega, heff_upd _ _
          (lookup_self_sorted hu (firstGe_mem huu)), ?_⟩
        intro q hq1 hq2
        exact heff_none q (lookup_none_of_firstGe_some hu huu hq1 hq2)
          (lookup_none_of_firstGe_some hj hjk hq1 (by omega))
          (hbt_none_of_kb kb hkb q hq1 (by omega))
      · next hugt =>
        obtain rfl := Option.some.inj hk
        have hjp := firstGe_ge hjk
        refine ⟨hjp, by omega, heff_jnl _ _
          (lookup_none_of_firstGe_some hu huu hjp (by omega))
          (lookup_self_sorted hj (firstGe_mem hjk)), ?_⟩
        intro q hq1 hq2
        exact heff_none q (lookup_none_of_firstGe_some hu huu hq1 (by omega))
          (lookup_none_of_firstGe_some hj hjk hq1 hq2)
          (hbt_none_of_kb kb hkb q hq1 (by omega))
    · rw [if_neg hjle, mergeCand_some_some] at hk
      split at hk
      · next hule =>
        obtain rfl := Option.some.inj hk
        have hup := firstGe_ge huu
        refine ⟨hup, by omega, heff_upd _ _
          (lookup_self_sorted hu (firstGe_mem huu)), ?_⟩
        intro q hq1 hq2
        exact heff_none q (lookup_none_of_firstGe_some hu huu hq1 hq2)
          (lookup_none_of_firstGe_some hj hjk hq1 (by omega))
          (hbt_none_of_kb kb hkb q hq1 (by omega))
      · next hugt =>
        obtain rfl := Option.some.inj hk
        have hkp := firstGe_ge hkb
        refine ⟨hkp, hkbe, heff_bt _ _
          (lookup_none_of_firstGe_some hu huu hkp (by omega))
          (lookup_none_of_firstGe_some hj hjk hkp (by omega))
          (hbt_self kb hkb), ?_⟩
        intro q hq1 hq2
        exact heff_none q (lookup_none_of_firstGe_some hu huu hq1 (by omega))
          (lookup_none_of_firstGe_some hj hjk hq1 (by omega))
          (hbt_none_of_kb kb hkb q hq1 hq2)
  -- none-candidate conclusions, 8 cases
  · intro _ q hq1 hq2
    exact heff_none q (lookup_none_of_firstGe_none huu hq1)
      (lookup_none_of_firstGe_none hjk hq1) (hbt_none_of_none hkb q hq1 hq2)
  · intro hk q hq1 hq2
    rw [mergeCand_none_right, mergeCand_none_some] at hk
    split at hk
    · cases hk
    · next hugt =>
      exact heff_none q (lookup_none_of_firstGe_some hu huu hq1 (by omega))
        (lookup_none_of_firstGe_none hjk hq1) (hbt_none_of_none hkb q hq1 hq2)
  · intro hk q hq1 hq2
    rw [mergeCand_none_some, mergeCand_none_right] at hk
    split at hk
    · cases hk
    · next hjgt =>
      exact heff_none q (lookup_none_of_firstGe_none huu hq1)
        (lookup_none_of_firstGe_some hj hjk hq1 (by omega))
        (hbt_none_of_none hkb q hq1 hq2)
  · intro hk q hq1 hq2
    rw [mergeCand_none_some] at hk
    by_cases hjle : j.p ≤ L.endPos
    · rw [if_pos hjle, mergeCand_some_some] at hk
      split at hk <;> cases hk
    · rw [if_neg hjle, mergeCand_none_some] at hk
      split at hk
      · cases hk
      · next hugt =>
        exact heff_none q (lookup_none_of_firstGe_some hu huu hq1 (by omega))
          (lookup_none_of_firstGe_some hj hjk hq1 (by omega))
          (hbt_none_of_none hkb q hq1 hq2)
  · intro hk
    rw [mergeCand_none_right, mergeCand_none_right] at hk
    cases hk
  · intro hk
    rw [mergeCand_none_right, mergeCand_some_some] at hk
    split at hk <;> cases hk
  · intro hk
    rw [mergeCand_some_some, mergeCand_none_right] at hk
    split at hk <;> cases hk
  · intro hk
    rw [mergeCand_some_some] at hk
    by_cases hjle : j.p ≤ kb.p
    · rw [if_pos hjle, mergeCand_some_some] at hk
      split at hk <;> cases hk
    · rw [if_neg hjle, mergeCand_some_some] at hk
      split at hk <;> cases hk

theorem not_liveAt_of_none {upd jnl : List MBKey} {bt : List BtLeaf} {q : Nat}
    (h : effKey upd jnl bt q = none) : ¬ liveAt upd jnl bt q := by
  rintro ⟨k, hk, -⟩
  rw [h] at hk
  cases hk

theorem not_liveAt_of_kind {upd jnl : List MBKey} {bt : List BtLeaf} {q : Nat}
    {k : MBKey} (h : effKey upd jnl bt q = some k) (hk : k.kind ≠ .value) :
    ¬ liveAt upd jnl bt q := by
  rintro ⟨x, hx, hxv⟩
  rw [h] at hx
  obtain rfl := Option.some.inj hx
  exact hk hxv

theorem peek_go_succ (jnl upd : List MBKey) (bt : List BtLeaf)
    (maxPos fuel s : Nat) :
    btree_iter_peek_go jnl upd bt maxPos (fuel + 1) s =
      match findLeaf bt s with
      | none => none
      | some L =>
        match mergeCand (mergeCand (firstGe L.keys s) L.endPos (firstGe jnl s))
            L.endPos (firstGe upd s) with
        | some k =>
          if k.kind = .deleted then
            btree_iter_peek_go jnl upd bt maxPos fuel
              (if s ≠ k.p then k.p else k.p + 1)
          else some k
        | none =>
          if L.endPos ≠ maxPos then
            btree_iter_peek_go jnl upd bt maxPos fuel (L.endPos + 1)
          else none := rfl

theorem peek_go_spec (jnl upd : List MBKey) (bt : List BtLeaf) (maxPos : Nat)
    (hbt : BtreeWF bt maxPos) (hj : sortedKeys jnl) (hu : sortedKeys upd) :
    ∀ (fuel s : Nat), s ≤ maxPos + 1 → maxPos + 2 ≤ fuel + s →
      (∀ k, btree_iter_peek_go jnl upd bt maxPos fuel s = some k →
        effKey upd jnl bt k.p = some k ∧ k.kind ≠ .deleted ∧ s ≤ k.p ∧
        k.p ≤ maxPos ∧
        (∀ q, s ≤ q → q < k.p → ¬ liveAt upd jnl bt q)) ∧
      (btree_iter_peek_go jnl upd bt maxPos fuel s = none →
        ∀ q, s ≤ q → q ≤ maxPos → ¬ liveAt upd jnl bt q) := by
  intro fuel
  induction fuel with
  | zero =>
    intro s hs hf
    exact absurd hf (by omega)
  | succ fuel ih =>
    intro s hs hf
    cases hL : findLeaf bt s with
    | none =>
      constructor
      · intro k h
        rw [peek_go_succ] at h
        simp only [hL] at h
        cases h
      · intro _ q hq1 hq2
        rcases findLeaf_none_gt hL with hgt | rfl
        · rw [hbt.2.2] at hgt
          omega
        · exact absurd rfl hbt.1
    | some L =>
      have hsle := (findLeaf_props hbt.2.1 hL).1
      obtain ⟨hendle, hsome, hnone⟩ :=
        peek_round_facts jnl upd bt maxPos hbt hj hu s L hL
      cases hm : mergeCand (mergeCand (firstGe L.keys s) L.endPos
          (firstGe jnl s)) L.endPos (firstGe upd s) with
      | some kc =>
        obtain ⟨hkc1, hkc2, hkc3, hkc4⟩ := hsome kc hm
        by_cases hdel : kc.kind = .deleted
        · have hstep : btree_iter_peek_go jnl upd bt maxPos (fuel + 1) s =
              btree_iter_peek_go jnl upd bt maxPos fuel
                (if s ≠ kc.p then kc.p else kc.p + 1) := by
            rw [peek_go_succ]
            simp only [hL, hm, if_pos hdel]
          set s2 := if s ≠ kc.p then kc.p else kc.p + 1 with hs2
          have hs2ge : s + 1 ≤ s2 ∧ s2 ≤ kc.p + 1 := by
            rw [hs2]
            by_cases hne : s ≠ kc.p
            · rw [if_pos hne]
              omega
            · rw [if_neg hne]
              omega
          have hbridge : ∀ q, s ≤ q → q < s2 → ¬ liveAt upd jnl bt q := by
            intro q hq1 hq2
            by_cases hq3 : q < kc.p
            · exact not_liveAt_of_none (hkc4 q hq1 hq3)
            · have : q = kc.p := by omega
              subst this
              exact not_liveAt_of_kind hkc3 (by rw [hdel]; intro hc; cases hc)
          have ih2 := ih s2 (by omega) (by omega)
          rw [hstep]
          constructor
          · intro k h
            obtain ⟨ha, hb, hc, hd, he⟩ := ih2.1 k h
            refine ⟨ha, hb, by omega, hd, fun q hq1 hq2 => ?_⟩
            by_cases hq3 : q < s2
            · exact hbridge q hq1 hq3
            · exact he q (by omega) hq2
          · intro h q hq1 hq2
            by_cases hq3 : q < s2
            · exact hbridge q hq1 hq3
            · exact ih2.2 h q (by omega) hq2
        · have hstep : btree_iter_peek_go jnl upd bt maxPos (fuel + 1) s =
              some kc := by
            rw [peek_go_succ]
            simp only [hL, hm, if_neg hdel]
          rw [hstep]
          constructor
          · intro k h
            obtain rfl := Option.some.inj h
            exact ⟨hkc3, hdel, hkc1, by omega,
              fun q hq1 hq2 => not_liveAt_of_none (hkc4 q hq1 hq2)⟩
          · intro h
            cases h
      | none =>
        by_cases hend : L.endPos ≠ maxPos
        · have hstep : btree_iter_peek_go jnl upd bt maxPos (fuel + 1) s =
              btree_iter_peek_go jnl upd bt maxPos fuel (L.endPos + 1) := by
            rw [peek_go_succ]
            simp only [hL, hm, if_pos hend]
          have hbridge : ∀ q, s ≤ q → q < L.endPos + 1 → ¬ liveAt upd jnl bt q :=
            fun q hq1 hq2 => not_liveAt_of_none (hnone hm q hq1 (by omega))
          have ih2 := ih (L.endPos + 1) (by omega) (by omega)
          rw [hstep]
          constructor
          · intro k h
            obtain ⟨ha, hb, hc, hd, he⟩ := ih2.1 k h
            refine ⟨ha, hb, by omega, hd, fun q hq1 hq2 => ?_⟩
            by_cases hq3 : q < L.endPos + 1
            · exact hbridge q hq1 hq3
            · exact he q (by omega) hq2
          · intro h q hq1 hq2
            by_cases hq3 : q < L.endPos + 1
            · exact hbridge q hq1 hq3
            · exact ih2.2 h q (by omega) hq2
        · rw [not_not] at hend
          have hstep : btree_iter_peek_go jnl upd bt maxPos (fuel + 1) s =
              none := by
            rw [peek_go_succ]
            simp only [hL, hm]
            rw [if_neg (fun h => h hend)]
          rw [hstep]
          constructor
          · intro k h
            cases h
          · intro _ q hq1 hq2
            refine not_liveAt_of_none (hnone hm q hq1 ?_)
            rw [hend]
            exact hq2

theorem peek_upto_go_succ (jnl upd : List MBKey) (bt : List BtLeaf)
    (maxPos : Nat) (isExtents : Bool) (pos endB fuel s : Nat) :
    btree_iter_peek_upto_go jnl upd bt maxPos isExtents pos endB (fuel + 1) s =
      match btree_iter_peek_go jnl upd bt maxPos (maxPos + 2) s with
      | none => none
      | some k =>
        let iter_pos : Nat :=
          if isExtents = false then k.p
          else if pos < k.p - k.size then k.p - k.size
          else pos
        if endB < iter_pos then none
        else if k.kind = .deleted ∨ k.kind = .whiteout then
          btree_iter_peek_upto_go jnl upd bt maxPos isExtents pos endB fuel
            (k.p + 1)
        else some k := rfl

theorem peek_upto_go_spec (jnl upd : List MBKey) (bt : List BtLeaf)
    (maxPos : Nat) (isExtents : Bool) (pos endB : Nat)
    (hbt : BtreeWF bt maxPos) (hj : sortedKeys jnl) (hu : sortedKeys upd)
    (hendB : endB ≤ maxPos) :
    ∀ (fuel s : Nat), pos ≤ s → s ≤ maxPos + 1 → maxPos + 2 ≤ fuel + s →
      (∀ k, btree_iter_peek_upto_go jnl upd bt maxPos isExtents pos endB
          fuel s = some k →
        effKey upd jnl bt k.p = some k ∧ k.kind = .value ∧ s ≤ k.p ∧
        k.p ≤ maxPos ∧
        (if isExtents = false then k.p
         else if pos < k.p - k.size then k.p - k.size else pos) ≤ endB ∧
        (∀ q, s ≤ q → q < k.p → ¬ liveAt upd jnl bt q)) ∧
      (btree_iter_peek_upto_go jnl upd bt maxPos isExtents pos endB
          fuel s = none →
        ∀ q, s ≤ q → q ≤ endB → ¬ liveAt upd jnl bt q) := by
  intro fuel
  induction fuel with
  | zero =>
    intro s hps hs hf
    exact absurd hf (by omega)
  | succ fuel ih =>
    intro s hps hs hf
    have hinner := peek_go_spec jnl upd bt maxPos hbt hj hu (maxPos + 2) s hs
      (by omega)
    cases hk : btree_iter_peek_go jnl upd bt maxPos (maxPos + 2) s with
    | none =>
      have hstep : btree_iter_peek_upto_go jnl upd bt maxPos isExtents pos
          endB (fuel + 1) s = none := by
        rw [peek_upto_go_succ]
        simp only [hk]
      rw [hstep]
      refine ⟨fun k h => absurd h (by intro hc; cases hc), fun _ q hq1 hq2 => ?_⟩
      exact hinner.2 hk q hq1 (by omega)
    | some k =>
      obtain ⟨hke, hkd, hks, hkm, hkb⟩ := hinner.1 k hk
      by_cases hip : endB < (if isExtents = false then k.p
          else if pos < k.p - k.size then k.p - k.size else pos)
      · have hstep : btree_iter_peek_upto_go jnl upd bt maxPos isExtents pos
            endB (fuel + 1) s = none := by
          rw [peek_upto_go_succ]
          simp only [hk]
          rw [if_pos hip]
        rw [hstep]
        refine ⟨fun k' h => absurd h (by intro hc; cases hc),
          fun _ q hq1 hq2 => ?_⟩
        have hqk : q < k.p := by
          by_cases hext : isExtents = false
          · rw [if_pos hext] at hip
            omega
          · rw [if_neg hext] at hip
            by_cases hpk : pos < k.p - k.size
            · rw [if_pos hpk] at hip
              omega
            · rw [if_neg hpk] at hip
              omega
        exact hkb q hq1 hqk
      · by_cases hwht : k.kind = .deleted ∨ k.kind = .whiteout
        · have hstep : btree_iter_peek_upto_go jnl upd bt maxPos isExtents pos
              endB (fuel + 1) s =
              btree_iter_peek_upto_go jnl upd bt maxPos isExtents pos endB
                fuel (k.p + 1) := by
            rw [peek_upto_go_succ]
            simp only [hk]
            rw [if_neg hip, if_pos hwht]
          have hbridge : ∀ q, s ≤ q → q < k.p + 1 →
              ¬ liveAt upd jnl bt q := by
            intro q hq1 hq2
            by_cases hq3 : q < k.p
            · exact hkb q hq1 hq3
            · have : q = k.p := by omega
              subst this
              refine not_liveAt_of_kind hke ?_
              rcases hwht with hc | hc
              · exact absurd hc hkd
              · rw [hc]
                intro hc2
                cases hc2
          have ih2 := ih (k.p + 1) (by omega) (by omega) (by omega)
          rw [hstep]
          constructor
          · intro k' h
            obtain ⟨ha, hb, hc, hd, he, hg⟩ := ih2.1 k' h
            refine ⟨ha, hb, by omega, hd, he, fun q hq1 hq2 => ?_⟩
            by_cases hq3 : q < k.p + 1
            · exact hbridge q hq1 hq3
            · exact hg q (by omega) hq2
          · intro h q hq1 hq2
            by_cases hq3 : q < k.p + 1
            · exact hbridge q hq1 hq3
            · exact ih2.2 h q (by omega) hq2
        · have hstep : btree_iter_peek_upto_go jnl upd bt maxPos isExtents pos
              endB (fuel + 1) s = some k := by
            rw [peek_upto_go_succ]
            simp only [hk]
            rw [if_neg hip, if_neg hwht]
          rw [hstep]
          constructor
          · intro k' h
            obtain rfl := Option.some.inj h
            have hkv : k.kind = .value := by
              cases hck : k.kind
              · exact absurd hck hkd
              · exact absurd (Or.inr hck) hwht
              · rfl
            exact ⟨hke, hkv, hks, hkm, by omega, hkb⟩
          · intro h
            cases h

/-- C4: a successful `bch2_btree_iter_peek_upto` returns the first key at
or after the iterator cursor. If it returns `k`, then `k` is the key
visible to the iterator (staged updates over journal over btree) at `k.p`
and is live; for a non-extent iterator `pos ≤ k.p ≤ end`, for an extent
iterator the key's end is past the cursor (`pos < k.p`, unless the cursor
is already at `SPOS_MAX`) and its start is within the end bound; and no
live key visible to the iterator lies strictly between the cursor and
`k.p`. If no such key exists up to the end bound, it returns `none`: no
live key is visible anywhere in the searched range. -/
theorem C4_btree_iter_peek_upto_first_key (jnl upd : List MBKey)
    (bt : List BtLeaf) (maxPos : Nat) (isExtents : Bool) (pos endB : Nat)
    (hbt : BtreeWF bt maxPos) (hj : sortedKeys jnl) (hu : sortedKeys upd)
    (hpos : pos ≤ maxPos) (hendB : endB ≤ maxPos) :
    (∀ k, bch2_btree_iter_peek_upto jnl upd bt maxPos isExtents pos endB =
        some k →
      effKey upd jnl bt k.p = some k ∧ k.kind = .value ∧
      (isExtents = false → pos ≤ k.p ∧ k.p ≤ endB) ∧
      (isExtents = true → (pos < k.p ∨ pos = maxPos) ∧ k.p - k.size ≤ endB) ∧
      (∀ q, pos < q → q < k.p → ¬ liveAt upd jnl bt q)) ∧
    (bch2_btree_iter_peek_upto jnl upd bt maxPos isExtents pos endB = none →
      ∀ q, btree_iter_search_key isExtents maxPos pos ≤ q → q ≤ endB →
        ¬ liveAt upd jnl bt q) := by
  have hs0ge : pos ≤ btree_iter_search_key isExtents maxPos pos := by
    unfold btree_iter_search_key
    split <;> omega
  have hs0le : btree_iter_search_key isExtents maxPos pos ≤ pos + 1 := by
    unfold btree_iter_search_key
    split <;> omega
  have hmain := peek_upto_go_spec jnl upd bt maxPos isExtents pos endB hbt
    hj hu hendB (maxPos + 2) (btree_iter_search_key isExtents maxPos pos)
    hs0ge (by omega) (by omega)
  constructor
  · intro k h
    obtain ⟨ha, hb, hc, hd, he, hg⟩ := hmain.1 k h
    refine ⟨ha, hb, ?_, ?_, fun q hq1 hq2 => hg q (by omega) hq2⟩
    · intro hext
      rw [if_pos hext] at he
      exact ⟨by omega, he⟩
    · intro hext
      rw [if_neg (by rw [hext]; intro hc2; cases hc2)] at he
      constructor
      · by_cases hpm : pos = maxPos
        · exact Or.inr hpm
        · have hs1 : btree_iter_search_key isExtents maxPos pos = pos + 1 := by
            unfold btree_iter_search_key
            rw [if_pos ⟨hext, hpm⟩]
          left
          omega
      · by_cases hps : pos < k.p - k.size
        · rw [if_pos hps] at he
          exact he
        · rw [if_neg hps] at he
          omega
  · intro h q hq1 hq2
    exact hmain.2 h q hq1 hq2

theorem C4_btree_iter_peek_upto_first_key_witness :
    bch2_btree_iter_peek_upto [] []
        [⟨10, [⟨3, 0, MKeyType.value⟩]⟩] 10 false 1 10 =
      some ⟨3, 0, MKeyType.value⟩ ∧
    effKey [] [] [⟨10, [⟨3, 0, MKeyType.value⟩]⟩] 3 =
      some ⟨3, 0, MKeyType.value⟩ ∧
    ¬ liveAt [] [] [⟨10, [⟨3, 0, MKeyType.value⟩]⟩] 2 := by
  have hbt : BtreeWF [⟨10, [⟨3, 0, MKeyType.value⟩]⟩] 10 := by
    refine ⟨by simp, ⟨?_, ?_, ?_, trivial⟩, rfl⟩
    · intro k hk
      simp only [List.mem_singleton] at hk
      rw [hk]
      exact ⟨by decide, by decide⟩
    · exact List.pairwise_singleton _ _
    · omega
  have h := C4_btree_iter_peek_upto_first_key [] []
    [⟨10, [⟨3, 0, MKeyType.value⟩]⟩] 10 false 1 10 hbt
    List.Pairwise.nil List.Pairwise.nil (by omega) (by omega)
  have hq := h.1 ⟨3, 0, MKeyType.value⟩ rfl
  exact ⟨rfl, hq.1, hq.2.2.2.2 2 (by decide) (by decide)⟩

end Bcachefs
